import Mathlib

/-!
Verification of the cycling elevation-profile app's geometry pipeline.

The arithmetic of the JavaScript source is modelled exactly:
* JavaScript `number` values that can be NaN or ±Infinity are modelled by
  `JSNum` (a rational together with the three special values), and the
  arithmetic/coercion operators used by the source (`+`, `*`, `-`, `/`,
  `||`, `Math.max`, `Math.min`, `Math.round`, `<=`, `<`) are given their
  ECMAScript semantics on that type (exact rational arithmetic in place of
  binary floating point).
* Purely finite numeric code (the Strava route helpers, `niceStep`) is
  modelled over `ℚ`; the trigonometric projector is modelled over `ℝ`.
-/

namespace ClimbApp

/-- A JavaScript `number`: a finite (exact) rational, `NaN`, or ±Infinity. -/
inductive JSNum where
  | fin (q : ℚ)
  | nan
  | inf
  | ninf
deriving DecidableEq, Repr

namespace JSNum

/-- JS truthiness of a number: `0` and `NaN` are falsy. -/
def truthy : JSNum → Bool
  | fin q => q != 0
  | nan => false
  | inf => true
  | ninf => true

/-- `a || b` on numbers. -/
def jsOr (a b : JSNum) : JSNum := if a.truthy then a else b

/-- JS addition. -/
def jsAdd : JSNum → JSNum → JSNum
  | nan, _ => nan
  | _, nan => nan
  | inf, ninf => nan
  | ninf, inf => nan
  | inf, _ => inf
  | _, inf => inf
  | ninf, _ => ninf
  | _, ninf => ninf
  | fin a, fin b => fin (a + b)

/-- JS negation. -/
def jsNeg : JSNum → JSNum
  | fin q => fin (-q)
  | nan => nan
  | inf => ninf
  | ninf => inf

/-- JS subtraction. -/
def jsSub (a b : JSNum) : JSNum := jsAdd a (jsNeg b)

/-- JS multiplication (signed zeros are not distinguished; none of the
modelled code branches on `-0`). -/
def jsMul : JSNum → JSNum → JSNum
  | nan, _ => nan
  | _, nan => nan
  | fin a, fin b => fin (a * b)
  | inf, fin b => if b > 0 then inf else if b < 0 then ninf else nan
  | ninf, fin b => if b > 0 then ninf else if b < 0 then inf else nan
  | fin a, inf => if a > 0 then inf else if a < 0 then ninf else nan
  | fin a, ninf => if a > 0 then ninf else if a < 0 then inf else nan
  | inf, inf => inf
  | inf, ninf => ninf
  | ninf, inf => ninf
  | ninf, ninf => inf

/-- JS division (only ever used with a nonzero finite divisor here). -/
def jsDiv : JSNum → JSNum → JSNum
  | nan, _ => nan
  | _, nan => nan
  | fin a, fin b =>
    if b = 0 then (if a = 0 then nan else if a > 0 then inf else ninf)
    else fin (a / b)
  | fin _, inf => fin 0
  | fin _, ninf => fin 0
  | inf, fin b => if b ≥ 0 then inf else ninf
  | ninf, fin b => if b ≥ 0 then ninf else inf
  | inf, _ => nan
  | ninf, _ => nan

/-- JS `<=` comparison (false whenever either side is NaN). -/
def jsLe : JSNum → JSNum → Bool
  | nan, _ => false
  | _, nan => false
  | ninf, _ => true
  | _, inf => true
  | inf, _ => false
  | _, ninf => false
  | fin a, fin b => a ≤ b

/-- JS `<` comparison (false whenever either side is NaN). -/
def jsLt : JSNum → JSNum → Bool
  | nan, _ => false
  | _, nan => false
  | inf, _ => false
  | _, ninf => false
  | ninf, _ => true
  | _, inf => true
  | fin a, fin b => a < b

/-- `Math.max` on two numbers (NaN-propagating). -/
def jsMax : JSNum → JSNum → JSNum
  | nan, _ => nan
  | _, nan => nan
  | a, b => if jsLe a b then b else a

/-- `Math.min` on two numbers (NaN-propagating). -/
def jsMin : JSNum → JSNum → JSNum
  | nan, _ => nan
  | _, nan => nan
  | a, b => if jsLe a b then a else b

/-- `Math.round`: round half toward +∞ on finite values. -/
def jsRound : JSNum → JSNum
  | fin q => fin (⌊q + 1 / 2⌋ : ℤ)
  | nan => nan
  | inf => inf
  | ninf => ninf

/-- `Math.min(...xs)` over a spread array: fold of `jsMin` seeded with
`Math.min()`'s empty-argument result `+Infinity`. -/
def jsMinList (l : List JSNum) : JSNum := l.foldl jsMin inf

end JSNum

open JSNum

/-- `Segment` from `lib/types.ts`: `{ km: number, grade: number }`. -/
structure Segment where
  km : JSNum
  grade : JSNum
deriving DecidableEq, Repr

/-- One entry of `accumulate`'s `pts` array: `{ d, elev }`. -/
structure AccPt where
  d : JSNum
  elev : JSNum
deriving DecidableEq, Repr

/-- The record returned by `accumulate`. -/
structure AccResult where
  points : List AccPt
  totalKm : JSNum
  totalGainM : JSNum
deriving DecidableEq, Repr

/-- Loop state of `accumulate`: `d`, `elev`, `gain`, and the `pts` array. -/
structure AccState where
  d : JSNum
  elev : JSNum
  gain : JSNum
  pts : List AccPt
deriving DecidableEq, Repr

/-- `const len = Math.max(0, +s.km || 0)` from `accumulate`. -/
def sanLen (s : Segment) : JSNum := jsMax (fin 0) (jsOr s.km (fin 0))

/-- `const g = +s.grade || 0` from `accumulate`. -/
def sanGrade (s : Segment) : JSNum := jsOr s.grade (fin 0)

/-- `const rise = len * g * 10` from `accumulate`. -/
def riseOf (s : Segment) : JSNum := jsMul (jsMul (sanLen s) (sanGrade s)) (fin 10)

/-- Body of `accumulate`'s `for` loop (state update for one segment). -/
def accStep (st : AccState) (s : Segment) : AccState :=
  let len := sanLen s
  let d := jsAdd st.d len
  let rise := riseOf s
  let elev := jsAdd st.elev rise
  let gain := if jsLt (fin 0) rise then jsAdd st.gain rise else st.gain
  ⟨d, elev, gain, st.pts ++ [⟨d, elev⟩]⟩

/-- `accumulate` from `lib/utils/math.ts`. -/
def accumulate (segments : List Segment) : AccResult :=
  let st := segments.foldl accStep ⟨fin 0, fin 0, fin 0, [⟨fin 0, fin 0⟩]⟩
  ⟨st.pts, st.d, jsRound st.gain⟩

example : (accumulate [⟨fin 1, fin 10⟩, ⟨fin 1, fin (-5)⟩]).points.map AccPt.elev
    = [fin 0, fin 100, fin 50] := by
  norm_num [accumulate, accStep, riseOf, sanLen, sanGrade, jsMax, jsOr, truthy,
    jsAdd, jsMul, jsLt, jsLe, jsRound]

example : (accumulate [⟨fin 1, fin 10⟩, ⟨fin 1, fin (-5)⟩]).totalGainM = fin 100 := by
  norm_num [accumulate, accStep, riseOf, sanLen, sanGrade, jsMax, jsOr, truthy,
    jsAdd, jsMul, jsLt, jsLe, jsRound]

/-! ### `niceStep` from `lib/utils/math.ts`

`Math.floor(Math.log10 rough)` is modelled exactly over `ℚ` by `ilog10`
(the unique `k` with `10^k ≤ rough < 10^(k+1)` for positive `rough`),
and `Math.pow(10, ·)` by `zpow`. -/

/-- Fuel-driven base-10 logarithm on `ℕ` (`log10Aux n n` is `⌊log10 n⌋`). -/
def log10Aux : ℕ → ℕ → ℕ
  | 0, _ => 0
  | fuel + 1, n => if n < 10 then 0 else log10Aux fuel (n / 10) + 1

/-- `⌊log10 n⌋` for `n ≥ 1` (0 at 0). -/
def natLog10 (n : ℕ) : ℕ := log10Aux n n

/-- `Math.pow(10, k)` for an integer exponent. -/
def pow10 (k : ℤ) : ℚ := (10 : ℚ) ^ k

/-- `Math.floor(Math.log10 q)`, exactly, for `q > 0` (junk elsewhere: JS
produces NaN or -Infinity there and `niceStep` is only specified for positive
ranges). -/
def ilog10 (q : ℚ) : ℤ :=
  if 1 ≤ q then (natLog10 ⌊q⌋.toNat : ℤ)
  else
    let k := natLog10 ⌊q⁻¹⌋.toNat
    if q⁻¹ = (10 : ℚ) ^ k then -(k : ℤ) else -((k : ℤ) + 1)

/-- The `reduce` callback of `niceStep`: keep the candidate strictly
closer to `rough` (the incumbent wins ties). -/
def pickCloser (rough best v : ℚ) : ℚ := if |v - rough| < |best - rough| then v else best

/-- `niceStep` from `lib/utils/math.ts`: the `reduce` with initial value
`cand[0]` visits every candidate. -/
def niceStep (range maxTicks : ℚ) : ℚ :=
  let rough := range / max 1 maxTicks
  let p := pow10 (ilog10 rough)
  let cand := [(1 : ℚ), 2, 2.5, 5, 10].map (fun m => m * p)
  cand.foldl (pickCloser rough) (cand.headD 0)

/-! ### `colorForGrade` from `lib/utils/color.ts` -/

/-- `SlopeColor` from `lib/types.ts`. -/
structure SlopeColor where
  upTo : JSNum
  color : String
deriving DecidableEq, Repr

/-- `colorForGrade`: `(buckets.find((s) => g <= s.upTo) || buckets.at(-1)!)!.color`.
`none` models the TypeError thrown on an empty bucket list (`.color` of
`undefined`). -/
def colorForGrade (g : JSNum) (buckets : List SlopeColor) : Option String :=
  match buckets.find? (fun s => jsLe g s.upTo) with
  | some s => some s.color
  | none => buckets.getLast?.map SlopeColor.color

/-- Reference model built from the spec's words alone: the color of the
first bucket whose `upTo >= grade`, and the last bucket's color when no
bucket matches. Compared against `colorForGrade` for C5. -/
def specFirstColor (g : JSNum) : List SlopeColor → Option String
  | [] => none
  | b :: bs =>
    if jsLe g b.upTo then some b.color
    else
      match specFirstColor g bs with
      | some c => some c
      | none => some b.color

/-! ### `worldPts` from `components/ProfileChart.tsx` (lines 32–69) -/

/-- A derived world point `{ X, Y }` (km, km of relative elevation). -/
structure WorldPt where
  X : JSNum
  Y : JSNum
deriving DecidableEq, Repr

/-- The world points derived in `ProfileChart`'s model:
`elevMin = Math.min(...points.map(p => p.elev))` and
`worldPts = points.map(p => ({ X: p.d, Y: (p.elev - elevMin) / 1000 }))`. -/
def worldPtsOf (segments : List Segment) : List WorldPt :=
  let points := (accumulate segments).points
  let elevMin := jsMinList (points.map AccPt.elev)
  points.map (fun p => ⟨p.d, jsDiv (jsSub p.elev elevMin) (fin 1000)⟩)

/-! ### The Strava route helpers from `app/api/strava/segment/[id]/route.ts`

These work on sanitized finite samples (`toPoints` drops non-finite
entries), so they are modelled directly over `ℚ`. -/

/-- A raw sample `{ d_km, elev_m }`. -/
structure RawPt where
  d : ℚ
  elev : ℚ
deriving DecidableEq, Repr

/-- An output bin `{ km, grade }`. -/
structure Bin where
  km : ℚ
  grade : ℚ
deriving DecidableEq, Repr

/-- `+x.toFixed(3)`: round to 3 decimals, ties toward +∞. -/
def toFixed3 (q : ℚ) : ℚ := (⌊q * 1000 + 1 / 2⌋ : ℤ) / 1000

/-- `+x.toFixed(2)`: round to 2 decimals, ties toward +∞. -/
def toFixed2 (q : ℚ) : ℚ := (⌊q * 100 + 1 / 2⌋ : ℤ) / 100

/-- `Math.round` on a finite value. -/
def roundQ (q : ℚ) : ℤ := ⌊q + 1 / 2⌋

/-- The search loop of `getElevAt`: scan consecutive pairs `[a, b]` for one
bracketing `target` with `b.d_km > a.d_km`, and linearly interpolate. -/
def interpFind (a : RawPt) : List RawPt → ℚ → Option ℚ
  | [], _ => none
  | b :: rest, t =>
    if t ≥ a.d ∧ t ≤ b.d ∧ b.d > a.d then
      some (a.elev + (t - a.d) / (b.d - a.d) * (b.elev - a.elev))
    else interpFind b rest t

/-- `getElevAt` from `binByDistance`: interpolated elevation at `target`,
falling back to the last point's elevation (only ever called with a
non-empty `points`; 0 for the impossible empty case). -/
def getElevAt (points : List RawPt) (t : ℚ) : ℚ :=
  match points with
  | [] => 0
  | p :: rest => (interpFind p rest t).getD (rest.getLastD p).elev

/-- `totalGain`'s accumulation: sum of the positive `elev` deltas between
consecutive points. -/
def gainAux (a : RawPt) : List RawPt → ℚ
  | [] => 0
  | b :: rest => (if b.elev - a.elev > 0 then b.elev - a.elev else 0) + gainAux b rest

/-- `totalGain` from `route.ts`: `Math.round` of the positive-delta sum. -/
def totalGain (points : List RawPt) : ℤ :=
  match points with
  | [] => roundQ 0
  | p :: rest => roundQ (gainAux p rest)

/-- Loop state of `binByDistance`. -/
structure BinState where
  prevD : ℚ
  prevE : ℚ
  nextEdge : ℚ
  accDist : ℚ
  accRise : ℚ
  result : List Bin
deriving DecidableEq, Repr

/-- `pushBin` from `binByDistance`: emit `{ km, grade }` from the
accumulators (skipping empty bins) and reset them. -/
def pushBin (st : BinState) : BinState :=
  if st.accDist ≤ 0 then st
  else
    { st with
      result := st.result ++ [⟨toFixed3 st.accDist, toFixed2 (st.accRise / (st.accDist * 1000) * 100)⟩]
      accDist := 0
      accRise := 0 }

/-- The `while (d >= nextEdge)` loop of `binByDistance`: split at each bin
edge (elevation interpolated there), emitting one full bin per crossing.
The `binKm ≤ 0` guard makes the model total; the JS loop does not
terminate there, and all theorems assume `0 < binKm`. -/
def crossEdges (points : List RawPt) (binKm d : ℚ) (st : BinState) : BinState :=
  if h : binKm ≤ 0 ∨ d < st.nextEdge then st
  else
    let eAt := getElevAt points st.nextEdge
    let st1 := pushBin { st with
      accDist := st.accDist + (st.nextEdge - st.prevD)
      accRise := st.accRise + (eAt - st.prevE) }
    crossEdges points binKm d
      { st1 with prevD := st.nextEdge, prevE := eAt, nextEdge := st.nextEdge + binKm }
  termination_by (⌈(d - st.nextEdge) / binKm⌉ + 1).toNat
  decreasing_by
    push_neg at h
    obtain ⟨hb, hd⟩ := h
    show (⌈(d - (st.nextEdge + binKm)) / binKm⌉ + 1).toNat < (⌈(d - st.nextEdge) / binKm⌉ + 1).toNat
    have hx : (d - (st.nextEdge + binKm)) / binKm = (d - st.nextEdge) / binKm - 1 := by
      field_simp
      ring
    have hc : (0 : ℚ) ≤ (d - st.nextEdge) / binKm :=
      div_nonneg (by linarith) (le_of_lt hb)
    have hc' : (0 : ℤ) ≤ ⌈(d - st.nextEdge) / binKm⌉ := Int.ceil_nonneg hc
    rw [hx, Int.ceil_sub_one]
    omega

/-- Body of `binByDistance`'s outer `for` loop: cross any bin edges up to
the sample's distance, then accumulate the remaining piece inside the
current bin. -/
def binStep (points : List RawPt) (binKm : ℚ) (st : BinState) (p : RawPt) : BinState :=
  let st1 := crossEdges points binKm p.d st
  if p.d - st1.prevD > 0 then
    { st1 with
      accDist := st1.accDist + (p.d - st1.prevD)
      accRise := st1.accRise + (p.elev - st1.prevE)
      prevD := p.d
      prevE := p.elev }
  else st1

/-- `binByDistance` from `route.ts`. -/
def binByDistance (points : List RawPt) (binKm : ℚ) : List Bin :=
  match points with
  | [] => []
  | p0 :: rest =>
    let st0 : BinState := ⟨p0.d, p0.elev, p0.d + binKm, 0, 0, []⟩
    (pushBin (rest.foldl (binStep (p0 :: rest) binKm) st0)).result

/-! ### `axonProject` and `fitAxonBoundingRangeCentered` from
`lib/utils/projection.ts`, and the shelf vector from
`components/ProfileChart.tsx` (lines 88–92).

Trigonometry forces this part of the model into `ℝ`; the floating-point
arithmetic of the source is idealized as exact real arithmetic. -/

noncomputable section

/-- `AxonParams` from `lib/types.ts`. -/
structure AxonParams where
  yawDeg : ℝ
  pitchDeg : ℝ
  rollDeg : ℝ
  xScale : ℝ
  verticalExaggeration : ℝ

/-- Canvas margins. -/
structure Margin where
  top : ℝ
  right : ℝ
  bottom : ℝ
  left : ℝ

/-- `DEG` from `projection.ts`: degrees to radians. -/
def DEG (d : ℝ) : ℝ := d * Real.pi / 180

/-- `axonProject`: scale, then rotate yaw → pitch → roll, output `(x, y)`.
`params.xScale ?? 1` and `params.verticalExaggeration ?? 1` never see an
absent field here (the config always provides both), so they are plain
fields. -/
def axonProject (X Y Z : ℝ) (p : AxonParams) : ℝ × ℝ :=
  let Xs := X * p.xScale
  let Ys := Y * p.verticalExaggeration
  let Zs := Z
  let cy := Real.cos (DEG p.yawDeg)
  let sy := Real.sin (DEG p.yawDeg)
  let x1 := cy * Xs + sy * Zs
  let y1 := Ys
  let z1 := -sy * Xs + cy * Zs
  let cp := Real.cos (DEG p.pitchDeg)
  let sp := Real.sin (DEG p.pitchDeg)
  let x2 := x1
  let y2 := cp * y1 - sp * z1
  let cr := Real.cos (DEG p.rollDeg)
  let sr := Real.sin (DEG p.rollDeg)
  (cr * x2 - sr * y2, sr * x2 + cr * y2)

/-- The 8 corners of the box `[0,W] × [0,H] × [zMin,zMax]`, in source
order. -/
def worldCorners (W H zMin zMax : ℝ) : List (ℝ × ℝ × ℝ) :=
  [(0, 0, zMin), (W, 0, zMin), (0, H, zMin), (W, H, zMin),
   (0, 0, zMax), (W, 0, zMax), (0, H, zMax), (W, H, zMax)]

section Fit

variable (W H zMin zMax width height : ℝ) (margin : Margin) (params : AxonParams)

/-- The 8 projected corners. -/
def projCorners : List (ℝ × ℝ) :=
  (worldCorners W H zMin zMax).map (fun c => axonProject c.1 c.2.1 c.2.2 params)

/-! The `±Infinity`-seeded corner loop computes the minimum/maximum of the
8 projected coordinates; seeding the fold with the first projected corner
(and folding over all 8) yields the same value. -/

/-- `minX` of the corner scan. -/
def bbMinX : ℝ := ((projCorners W H zMin zMax params).map Prod.fst).foldl min (axonProject 0 0 zMin params).1

/-- `maxX` of the corner scan. -/
def bbMaxX : ℝ := ((projCorners W H zMin zMax params).map Prod.fst).foldl max (axonProject 0 0 zMin params).1

/-- `minY` of the corner scan. -/
def bbMinY : ℝ := ((projCorners W H zMin zMax params).map Prod.snd).foldl min (axonProject 0 0 zMin params).2

/-- `maxY` of the corner scan. -/
def bbMaxY : ℝ := ((projCorners W H zMin zMax params).map Prod.snd).foldl max (axonProject 0 0 zMin params).2

/-- `scale = min(innerW / worldW, innerH / worldH)` with the `1e-6`
degeneracy clamps. -/
def fitScale : ℝ :=
  min ((width - margin.left - margin.right) / max 1e-6 (bbMaxX W H zMin zMax params - bbMinX W H zMin zMax params))
    ((height - margin.top - margin.bottom) / max 1e-6 (bbMaxY W H zMin zMax params - bbMinY W H zMin zMax params))

/-- `ox = cx - xc * scale`. -/
def fitOx : ℝ :=
  margin.left + (width - margin.left - margin.right) / 2
    - (bbMinX W H zMin zMax params + bbMaxX W H zMin zMax params) / 2 * fitScale W H zMin zMax width height margin params

/-- `oy = cy + yc * scale`. -/
def fitOy : ℝ :=
  margin.top + (height - margin.top - margin.bottom) / 2
    + (bbMinY W H zMin zMax params + bbMaxY W H zMin zMax params) / 2 * fitScale W H zMin zMax width height margin params

/-- The fitted projector returned by `fitAxonBoundingRangeCentered`:
`(ox + x * scale, oy - y * scale)` of the raw projection. -/
def fitProject (X Y Z : ℝ) : ℝ × ℝ :=
  (fitOx W H zMin zMax width height margin params + (axonProject X Y Z params).1 * fitScale W H zMin zMax width height margin params,
   fitOy W H zMin zMax width height margin params - (axonProject X Y Z params).2 * fitScale W H zMin zMax width height margin params)

end Fit

/-- `Math.hypot` on two arguments. -/
def hypot (x y : ℝ) : ℝ := Real.sqrt (x ^ 2 + y ^ 2)

/-- `t || 1` on the result of `Math.hypot` (nonnegative, never NaN). -/
def orOne (t : ℝ) : ℝ := if t = 0 then 1 else t

/-- The screen-space shelf vector of `ProfileChart` (lines 88–92): the
fitted projection of world `(0,0,0) → (0,1,0)`, normalized and scaled to
`config.platform.pixelHeight` pixels. -/
def shelfVec (W H zMin zMax width height : ℝ) (margin : Margin) (params : AxonParams)
    (shelfPx : ℝ) : ℝ × ℝ :=
  let vx := (fitProject W H zMin zMax width height margin params 0 1 0).1
    - (fitProject W H zMin zMax width height margin params 0 0 0).1
  let vy := (fitProject W H zMin zMax width height margin params 0 1 0).2
    - (fitProject W H zMin zMax width height margin params 0 0 0).2
  let vYlen := orOne (hypot vx vy)
  (vx / vYlen * shelfPx, vy / vYlen * shelfPx)

end

/-- Reference model built from the spec's words for the total-gain part of
the remote data source: the sum of the positive elevation deltas between
consecutive points. -/
def posDeltaSum (points : List RawPt) : ℚ :=
  (((points.zip points.tail).map (fun ab => ab.2.elev - ab.1.elev)).filter
    (fun x => 0 < x)).sum

/-- The `j`-th (0-based) full bin the spec predicts for a stream starting
at distance `d0`: one whole `binKm` slice with its grade computed from
the edge-interpolated elevations at its two bin edges. -/
def fullBinAt (points : List RawPt) (d0 binKm : ℚ) (j : ℕ) : Bin :=
  ⟨toFixed3 binKm,
   toFixed2 ((getElevAt points (d0 + ((j : ℚ) + 1) * binKm)
       - getElevAt points (d0 + (j : ℚ) * binKm))
     / (binKm * 1000) * 100)⟩

/-- Loop invariant of `binByDistance` (for a stream starting at `d0`):
the accumulators measure the current bin exactly — `accDist` is the
distance advanced past the current bin's start `nextEdge - binKm`,
`prevD` stays strictly left of the next edge, `nextEdge` is the
`(n+1)`-st edge after `n` emitted bins, `accRise` is `prevE` minus the
interpolated elevation at the current bin's start, and the `n` emitted
bins are exactly the first `n` predicted full bins. -/
def BinLoopInv (points : List RawPt) (d0 binKm : ℚ) (st : BinState) : Prop :=
  st.accDist = st.prevD - (st.nextEdge - binKm)
  ∧ st.prevD < st.nextEdge
  ∧ st.nextEdge = d0 + ((st.result.length : ℚ) + 1) * binKm
  ∧ st.accRise = st.prevE - getElevAt points (d0 + (st.result.length : ℚ) * binKm)
  ∧ st.result = (List.range st.result.length).map (fullBinAt points d0 binKm)

/-! ## Theorems -/

/-! ### Helper lemmas about `accumulate` -/

/-- Elevation trace of the loop: successive partial sums of the rises. -/
def elevTrace (e : JSNum) : List Segment → List JSNum
  | [] => []
  | s :: ss => jsAdd e (riseOf s) :: elevTrace (jsAdd e (riseOf s)) ss

lemma scanl_cons_eq {α β : Type} (f : β → α → β) (b : β) (a : α) (l : List α) :
    List.scanl f b (a :: l) = b :: List.scanl f (f b a) l := rfl

lemma scanl_eq_cons_tail {α β : Type} (f : β → α → β) (b : β) (l : List α) :
    b :: (List.scanl f b l).tail = List.scanl f b l := by
  cases l <;> simp [List.scanl]

lemma elevTrace_eq_scanl_tail (segs : List Segment) :
    ∀ e : JSNum, elevTrace e segs = (List.scanl jsAdd e (segs.map riseOf)).tail := by
  induction segs with
  | nil => intro e; simp [elevTrace]
  | cons s ss ih =>
    intro e
    simp only [elevTrace, List.map_cons, List.scanl_cons, List.tail_cons, ih]
    exact scanl_eq_cons_tail jsAdd (jsAdd e (riseOf s)) (ss.map riseOf)

lemma foldl_accStep_pts (segs : List Segment) :
    ∀ st : AccState, (segs.foldl accStep st).pts.map AccPt.elev
      = st.pts.map AccPt.elev ++ elevTrace st.elev segs := by
  induction segs with
  | nil => intro st; simp [elevTrace]
  | cons s ss ih =>
    intro st
    simp only [List.foldl_cons, ih, accStep, elevTrace]
    simp

lemma foldl_accStep_prefix (segs : List Segment) :
    ∀ st : AccState, ∃ tl, (segs.foldl accStep st).pts = st.pts ++ tl := by
  induction segs with
  | nil => intro st; exact ⟨[], by simp⟩
  | cons s ss ih =>
    intro st
    obtain ⟨tl, htl⟩ := ih (accStep st s)
    exact ⟨[⟨jsAdd st.d (sanLen s), jsAdd st.elev (riseOf s)⟩] ++ tl, by
      simpa [accStep] using htl⟩

lemma foldl_accStep_gain (segs : List Segment) :
    ∀ st : AccState, (segs.foldl accStep st).gain
      = (segs.map riseOf).foldl (fun g r => if jsLt (fin 0) r then jsAdd g r else g) st.gain := by
  induction segs with
  | nil => intro st; simp
  | cons s ss ih =>
    intro st
    simp only [List.foldl_cons, ih, accStep, List.map_cons]

lemma foldl_pos_filter (rs : List JSNum) :
    ∀ g : JSNum, rs.foldl (fun g r => if jsLt (fin 0) r then jsAdd g r else g) g
      = (rs.filter (fun r => jsLt (fin 0) r)).foldl jsAdd g := by
  induction rs with
  | nil => intro g; simp
  | cons r rs ih =>
    intro g
    by_cases h : jsLt (fin 0) r <;> simp [List.filter_cons, h, ih]

lemma accumulate_head (segs : List Segment) :
    (accumulate segs).points.head? = some ⟨fin 0, fin 0⟩ := by
  obtain ⟨tl, htl⟩ := foldl_accStep_prefix segs ⟨fin 0, fin 0, fin 0, [⟨fin 0, fin 0⟩]⟩
  simp [accumulate, htl]

lemma accumulate_elev_scanl (segs : List Segment) :
    (accumulate segs).points.map AccPt.elev = List.scanl jsAdd (fin 0) (segs.map riseOf) := by
  have h := foldl_accStep_pts segs ⟨fin 0, fin 0, fin 0, [⟨fin 0, fin 0⟩]⟩
  simp only [accumulate]
  rw [h, elevTrace_eq_scanl_tail]
  simpa using scanl_eq_cons_tail jsAdd (fin 0) (segs.map riseOf)

lemma accumulate_gain_filter (segs : List Segment) :
    (accumulate segs).totalGainM
      = jsRound (((segs.map riseOf).filter (fun r => jsLt (fin 0) r)).foldl jsAdd (fin 0)) := by
  have h := foldl_accStep_gain segs ⟨fin 0, fin 0, fin 0, [⟨fin 0, fin 0⟩]⟩
  simp only [accumulate]
  rw [h, foldl_pos_filter]

/-- C1: `accumulate` starts its point list at `(0, 0)`, the cumulative
elevations are the partial sums of the per-segment rises
`len * grade * 10`, and `totalGainM` is the rounded sum of the positive
rises only; on `[{km:1, grade:10}, {km:1, grade:-5}]` the elevations are
`[0, 100, 50]` m and `totalGainM = 100`. -/
theorem accumulate_spec (segs : List Segment) :
    (accumulate segs).points.head? = some ⟨fin 0, fin 0⟩
    ∧ (accumulate segs).points.map AccPt.elev = List.scanl jsAdd (fin 0) (segs.map riseOf)
    ∧ (accumulate segs).totalGainM
        = jsRound (((segs.map riseOf).filter (fun r => jsLt (fin 0) r)).foldl jsAdd (fin 0))
    ∧ (accumulate [⟨fin 1, fin 10⟩, ⟨fin 1, fin (-5)⟩]).points.map AccPt.elev
        = [fin 0, fin 100, fin 50]
    ∧ (accumulate [⟨fin 1, fin 10⟩, ⟨fin 1, fin (-5)⟩]).totalGainM = fin 100 := by
  refine ⟨accumulate_head segs, accumulate_elev_scanl segs, accumulate_gain_filter segs, ?_, ?_⟩
  · norm_num [accumulate, accStep, riseOf, sanLen, sanGrade, jsMax, jsOr, truthy,
      jsAdd, jsMul, jsLt, jsLe, jsRound]
  · norm_num [accumulate, accStep, riseOf, sanLen, sanGrade, jsMax, jsOr, truthy,
      jsAdd, jsMul, jsLt, jsLe, jsRound]

/-! ### Color bucket lookup -/

lemma find?_cons_false {α : Type} (p : α → Bool) (a : α) (l : List α) (h : p a = false) :
    (a :: l).find? p = l.find? p := by
  simp [List.find?, h]

lemma colorForGrade_eq_spec (g : JSNum) :
    ∀ bs : List SlopeColor, bs ≠ [] → colorForGrade g bs = specFirstColor g bs := by
  intro bs
  induction bs with
  | nil => intro h; exact absurd rfl h
  | cons b rest ih =>
    intro _
    rcases Bool.eq_false_or_eq_true (jsLe g b.upTo) with hb | hb
    · simp [colorForGrade, specFirstColor, List.find?, hb]
    · rcases rest with _ | ⟨b2, rest2⟩
      · simp [colorForGrade, specFirstColor, List.find?, hb]
      · have h2 := ih (by simp)
        rw [specFirstColor, if_neg (by simp [hb]), ← h2,
          colorForGrade, colorForGrade, find?_cons_false _ _ _ (by simp [hb])]
        cases hf : (b2 :: rest2).find? (fun s => jsLe g s.upTo) with
        | some s => simp [hf]
        | none =>
          have hlast : (b2 :: rest2).getLast? = some ((b2 :: rest2).getLast (by simp)) :=
            List.getLast?_eq_getLast _ _
          simp [hf, List.getLast?_cons_cons, hlast]

/-- C5: for a sorted, non-empty bucket list, `colorForGrade` returns the
color of the first bucket whose `upTo ≥ grade`, and the last bucket's
color when none matches (the reference model `specFirstColor` says exactly
that); on `[{4,A},{8,B},{∞,C}]` the boundary values map as
`4 ↦ A`, `4.01 ↦ B`, `100 ↦ C`. -/
theorem colorForGrade_first_match (g : JSNum) (bs : List SlopeColor)
    (hne : bs ≠ [])
    (hsorted : bs.Pairwise (fun a b => jsLe a.upTo b.upTo = true)) :
    colorForGrade g bs = specFirstColor g bs
    ∧ colorForGrade (fin 4) [⟨fin 4, "A"⟩, ⟨fin 8, "B"⟩, ⟨JSNum.inf, "C"⟩] = some "A"
    ∧ colorForGrade (fin 4.01) [⟨fin 4, "A"⟩, ⟨fin 8, "B"⟩, ⟨JSNum.inf, "C"⟩] = some "B"
    ∧ colorForGrade (fin 100) [⟨fin 4, "A"⟩, ⟨fin 8, "B"⟩, ⟨JSNum.inf, "C"⟩] = some "C" := by
  refine ⟨colorForGrade_eq_spec g bs hne, ?_, ?_, ?_⟩
  · norm_num [colorForGrade, List.find?, jsLe]
  · norm_num [colorForGrade, List.find?, jsLe]
  · norm_num [colorForGrade, List.find?, jsLe]

/-- Witness for C5 at a concrete sorted non-empty bucket list. -/
theorem colorForGrade_first_match_witness :
    (([⟨fin 4, "A"⟩, ⟨fin 8, "B"⟩] : List SlopeColor) ≠ [])
    ∧ (([⟨fin 4, "A"⟩, ⟨fin 8, "B"⟩] : List SlopeColor).Pairwise
        (fun a b => jsLe a.upTo b.upTo = true))
    ∧ (colorForGrade (fin 5) [⟨fin 4, "A"⟩, ⟨fin 8, "B"⟩]
        = specFirstColor (fin 5) [⟨fin 4, "A"⟩, ⟨fin 8, "B"⟩]) := by
  refine ⟨by simp, by norm_num [List.pairwise_cons, jsLe], ?_⟩
  exact (colorForGrade_first_match (fin 5) [⟨fin 4, "A"⟩, ⟨fin 8, "B"⟩] (by simp)
    (by norm_num [List.pairwise_cons, jsLe])).1

/-- C10: for every non-empty bucket list and every grade (NaN and
infinities included) `colorForGrade` returns the color of some bucket in
the list, while on the empty list the lookup of the last bucket fails
(modelled as `none`). -/
theorem colorForGrade_total (g : JSNum) (bs : List SlopeColor) (hne : bs ≠ []) :
    (∃ b ∈ bs, colorForGrade g bs = some b.color)
    ∧ colorForGrade g ([] : List SlopeColor) = none := by
  constructor
  · cases hf : bs.find? (fun s => jsLe g s.upTo) with
    | some s =>
      exact ⟨s, List.mem_of_find?_eq_some hf, by simp [colorForGrade, hf]⟩
    | none =>
      refine ⟨bs.getLast hne, List.getLast_mem hne, ?_⟩
      simp [colorForGrade, hf, List.getLast?_eq_getLast _ hne]
  · rfl

/-- Witness for C10: a NaN grade against a one-bucket list. -/
theorem colorForGrade_total_witness :
    (([⟨fin 4, "A"⟩] : List SlopeColor) ≠ [])
    ∧ ((∃ b ∈ ([⟨fin 4, "A"⟩] : List SlopeColor),
          colorForGrade JSNum.nan [⟨fin 4, "A"⟩] = some b.color)
        ∧ colorForGrade JSNum.nan ([] : List SlopeColor) = none) := by
  exact ⟨by simp, colorForGrade_total JSNum.nan [⟨fin 4, "A"⟩] (by simp)⟩

/-! ### Sanitization in `accumulate` -/

lemma foldl_accStep_length (segs : List Segment) :
    ∀ st : AccState, (segs.foldl accStep st).pts.length = st.pts.length + segs.length := by
  induction segs with
  | nil => intro st; simp
  | cons s ss ih =>
    intro st
    simp only [List.foldl_cons, ih, accStep]
    simp
    omega

/-- Counterexample to C6 as stated: an `Infinity` grade is *not* treated
as 0 — `+s.grade || 0` only replaces falsy values (NaN, 0), so an infinite
grade propagates into the accumulated elevation. -/
theorem accumulate_inf_grade_counterexample :
    sanGrade ⟨fin 1, JSNum.inf⟩ = JSNum.inf
    ∧ (accumulate [⟨fin 1, JSNum.inf⟩]).points.map AccPt.elev = [fin 0, JSNum.inf]
    ∧ (accumulate [⟨fin 1, fin 0⟩]).points.map AccPt.elev = [fin 0, fin 0]
    ∧ (JSNum.inf ≠ fin 0) := by
  refine ⟨rfl, ?_, ?_, by simp⟩
  · norm_num [accumulate, accStep, riseOf, sanLen, sanGrade, jsMax, jsOr, truthy,
      jsAdd, jsMul, jsLt, jsLe, jsRound]
  · norm_num [accumulate, accStep, riseOf, sanLen, sanGrade, jsMax, jsOr, truthy,
      jsAdd, jsMul, jsLt, jsLe, jsRound]

/-- C6 (amended): `accumulate` never fails — a negative or NaN length is
sanitized to 0 and a NaN grade is treated as 0 (infinite values, however,
propagate), and the function always returns one point per segment plus
the initial one. -/
theorem accumulate_sanitizes (q : ℚ) (hq : q < 0) (km g : JSNum) (segs : List Segment) :
    sanLen ⟨fin q, g⟩ = fin 0
    ∧ sanLen ⟨JSNum.nan, g⟩ = fin 0
    ∧ sanGrade ⟨km, JSNum.nan⟩ = fin 0
    ∧ (accumulate segs).points.length = segs.length + 1 := by
  refine ⟨?_, ?_, rfl, ?_⟩
  · have hq0 : q ≠ 0 := ne_of_lt hq
    have hql : ¬((0 : ℚ) ≤ q) := not_le.mpr hq
    simp [sanLen, jsMax, jsOr, truthy, jsLe, hq0, hql]
  · simp [sanLen, jsMax, jsOr, truthy, jsLe]
  · simp only [accumulate, foldl_accStep_length]
    simp
    omega

/-- Witness for C6's amended theorem at `q = -1`. -/
theorem accumulate_sanitizes_witness :
    ((-1 : ℚ) < 0)
    ∧ (sanLen ⟨fin (-1), fin 3⟩ = fin 0
        ∧ sanLen ⟨JSNum.nan, fin 3⟩ = fin 0
        ∧ sanGrade ⟨fin 2, JSNum.nan⟩ = fin 0
        ∧ (accumulate [⟨fin 1, fin 10⟩]).points.length
            = ([⟨fin 1, fin 10⟩] : List Segment).length + 1) := by
  exact ⟨by norm_num, accumulate_sanitizes (-1) (by norm_num) (fin 2) (fin 3) [⟨fin 1, fin 10⟩]⟩

/-! ### World points: relative elevation floor -/

lemma foldl_min_le_init {α : Type} [LinearOrder α] (l : List α) (a : α) :
    l.foldl min a ≤ a := by
  induction l generalizing a with
  | nil => simp
  | cons x xs ih => exact le_trans (ih (min a x)) (min_le_left a x)

lemma foldl_min_le_mem {α : Type} [LinearOrder α] (l : List α) (a x : α) (hx : x ∈ l) :
    l.foldl min a ≤ x := by
  induction l generalizing a with
  | nil => cases hx
  | cons y ys ih =>
    rcases List.mem_cons.mp hx with rfl | hx'
    · exact le_trans (foldl_min_le_init ys (min a x)) (min_le_right a x)
    · exact ih (min a y) hx'

lemma foldl_min_le_cons {α : Type} [LinearOrder α] (a x : α) (l : List α) (hx : x ∈ a :: l) :
    l.foldl min a ≤ x := by
  rcases List.mem_cons.mp hx with rfl | hx'
  · exact foldl_min_le_init l x
  · exact foldl_min_le_mem l a x hx'

lemma foldl_min_mem_cons {α : Type} [LinearOrder α] (l : List α) (a : α) :
    l.foldl min a ∈ a :: l := by
  induction l generalizing a with
  | nil => simp
  | cons y ys ih =>
    rcases List.mem_cons.mp (ih (min a y)) with h | h
    · rcases min_choice a y with hm | hm
      · rw [List.foldl_cons, h, hm]; exact List.mem_cons_self _ _
      · rw [List.foldl_cons, h, hm]; exact List.mem_cons_of_mem _ (List.mem_cons_self _ _)
    · exact List.mem_cons_of_mem _ (List.mem_cons_of_mem _ h)

lemma init_le_foldl_max {α : Type} [LinearOrder α] (l : List α) (a : α) :
    a ≤ l.foldl max a := by
  induction l generalizing a with
  | nil => simp
  | cons x xs ih => exact le_trans (le_max_left a x) (ih (max a x))

lemma mem_le_foldl_max {α : Type} [LinearOrder α] (l : List α) (a x : α) (hx : x ∈ l) :
    x ≤ l.foldl max a := by
  induction l generalizing a with
  | nil => cases hx
  | cons y ys ih =>
    rcases List.mem_cons.mp hx with rfl | hx'
    · exact le_trans (le_max_right a x) (init_le_foldl_max ys (max a x))
    · exact ih (max a y) hx'

lemma jsAdd_fin_fin (a b : ℚ) : jsAdd (fin a) (fin b) = fin (a + b) := rfl

lemma jsMul_fin_fin (a b : ℚ) : jsMul (fin a) (fin b) = fin (a * b) := rfl

lemma jsSub_fin_fin (a b : ℚ) : jsSub (fin a) (fin b) = fin (a - b) := by
  simp [jsSub, jsNeg, jsAdd_fin_fin, sub_eq_add_neg]

lemma jsMax_fin_fin (a b : ℚ) : jsMax (fin a) (fin b) = fin (max a b) := by
  simp only [jsMax, jsLe, max_def]
  split <;> split <;> simp_all

lemma jsMin_fin_fin (a b : ℚ) : jsMin (fin a) (fin b) = fin (min a b) := by
  simp only [jsMin, jsLe, min_def]
  split <;> split <;> simp_all

lemma jsDiv_fin_1000 (a : ℚ) : jsDiv (fin a) (fin 1000) = fin (a / 1000) := by
  norm_num [jsDiv]

lemma sanLen_fin (a : ℚ) (g : JSNum) : ∃ x : ℚ, sanLen ⟨fin a, g⟩ = fin x := by
  by_cases h : a = 0
  · exact ⟨max 0 0, by simp [sanLen, jsOr, truthy, h, jsMax_fin_fin]⟩
  · exact ⟨max 0 a, by simp [sanLen, jsOr, truthy, h, jsMax_fin_fin]⟩

lemma riseOf_fin (s : Segment) (a b : ℚ) (ha : s.km = fin a) (hb : s.grade = fin b) :
    ∃ r : ℚ, riseOf s = fin r := by
  obtain ⟨x, hx⟩ := sanLen_fin a s.grade
  have hsan : sanLen s = fin x := by
    have : s = ⟨fin a, s.grade⟩ := by cases s; simp_all
    rw [this]; exact hx
  have hg : ∃ y : ℚ, sanGrade s = fin y := by
    by_cases h : b = 0
    · exact ⟨0, by simp [sanGrade, jsOr, truthy, hb, h]⟩
    · exact ⟨b, by simp [sanGrade, jsOr, truthy, hb, h]⟩
  obtain ⟨y, hy⟩ := hg
  exact ⟨x * y * 10, by rw [riseOf, hsan, hy, jsMul_fin_fin, jsMul_fin_fin]⟩

lemma scanl_jsAdd_fin (rs : List JSNum) (hrs : ∀ r ∈ rs, ∃ q : ℚ, r = fin q) :
    ∀ (e : ℚ) x, x ∈ List.scanl jsAdd (fin e) rs → ∃ q : ℚ, x = fin q := by
  induction rs with
  | nil =>
    intro e x hx
    simp only [List.scanl, List.mem_singleton] at hx
    exact ⟨e, hx⟩
  | cons r rs' ih =>
    intro e x hx
    obtain ⟨qr, hqr⟩ := hrs r (List.mem_cons_self _ _)
    rw [scanl_cons_eq] at hx
    rcases List.mem_cons.mp hx with rfl | hx'
    · exact ⟨e, rfl⟩
    · rw [hqr, jsAdd_fin_fin] at hx'
      exact ih (fun r hr => hrs r (List.mem_cons_of_mem _ hr)) (e + qr) x hx'

lemma all_fin_exists_map (l : List JSNum) (h : ∀ x ∈ l, ∃ q : ℚ, x = fin q) :
    ∃ qs : List ℚ, l = qs.map fin := by
  induction l with
  | nil => exact ⟨[], rfl⟩
  | cons x xs ih =>
    obtain ⟨qs, hqs⟩ := ih (fun y hy => h y (List.mem_cons_of_mem _ hy))
    obtain ⟨q, hq⟩ := h x (List.mem_cons_self _ _)
    exact ⟨q :: qs, by simp [hq, hqs]⟩

lemma jsMinList_map_fin (qs : List ℚ) :
    ∀ q : ℚ, (qs.map fin).foldl jsMin (fin q) = fin (qs.foldl min q) := by
  induction qs with
  | nil => intro q; rfl
  | cons x xs ih => intro q; simp [jsMin_fin_fin, ih]

lemma jsMinList_fin (q : ℚ) (qs : List ℚ) :
    jsMinList ((q :: qs).map fin) = fin (qs.foldl min q) := by
  have h0 : jsMin JSNum.inf (fin q) = fin q := by simp [jsMin, jsLe]
  simp only [jsMinList, List.map_cons, List.foldl_cons, h0]
  exact jsMinList_map_fin qs q

/-- C4 (amended): for every profile whose segment values are finite
numbers, the derived world points satisfy the relative-elevation floor:
every `Y` is a nonnegative finite value and some world point has `Y = 0`
(so `min Y = 0`). -/
theorem worldPts_relative_floor (segs : List Segment)
    (hfin : ∀ s ∈ segs, (∃ a : ℚ, s.km = fin a) ∧ (∃ b : ℚ, s.grade = fin b)) :
    (∀ p ∈ worldPtsOf segs, ∃ q : ℚ, p.Y = fin q ∧ 0 ≤ q)
    ∧ ∃ p ∈ worldPtsOf segs, p.Y = fin 0 := by
  have hrises : ∀ r ∈ segs.map riseOf, ∃ q : ℚ, r = fin q := by
    intro r hr
    obtain ⟨s, hs, rfl⟩ := List.mem_map.mp hr
    obtain ⟨⟨a, ha⟩, ⟨b, hb⟩⟩ := hfin s hs
    exact riseOf_fin s a b ha hb
  have helevfin : ∀ x ∈ (accumulate segs).points.map AccPt.elev, ∃ q : ℚ, x = fin q := by
    rw [accumulate_elev_scanl]
    exact fun x hx => scanl_jsAdd_fin (segs.map riseOf) hrises 0 x hx
  obtain ⟨qs, hqs⟩ := all_fin_exists_map _ helevfin
  have hlen : (accumulate segs).points.map AccPt.elev ≠ [] := by
    rw [accumulate_elev_scanl]
    intro hcon
    have := congrArg List.length hcon
    simp [List.length_scanl] at this
  rcases qs with _ | ⟨q0, qrest⟩
  · rw [hqs] at hlen; simp at hlen
  · set m : ℚ := qrest.foldl min q0 with hm
    have hminfin : jsMinList ((accumulate segs).points.map AccPt.elev) = fin m := by
      rw [hqs]; exact jsMinList_fin q0 qrest
    constructor
    · intro p' hp'
      simp only [worldPtsOf] at hp'
      obtain ⟨p, hp, rfl⟩ := List.mem_map.mp hp'
      have helev : p.elev ∈ (accumulate segs).points.map AccPt.elev :=
        List.mem_map_of_mem AccPt.elev hp
      rw [hqs] at helev
      obtain ⟨qi, hqi, hqie⟩ := List.mem_map.mp helev
      have hle : m ≤ qi := foldl_min_le_cons q0 qi qrest hqi
      refine ⟨(qi - m) / 1000, ?_, div_nonneg (sub_nonneg.mpr hle) (by norm_num)⟩
      simp only [worldPtsOf, hminfin, ← hqie, jsSub_fin_fin, jsDiv_fin_1000]
    · have hmmem : m ∈ q0 :: qrest := foldl_min_mem_cons qrest q0
      have : fin m ∈ (accumulate segs).points.map AccPt.elev := by
        rw [hqs]; exact List.mem_map_of_mem fin hmmem
      obtain ⟨p, hp, hpe⟩ := List.mem_map.mp this
      refine ⟨⟨p.d, jsDiv (jsSub p.elev (jsMinList ((accumulate segs).points.map AccPt.elev))) (fin 1000)⟩, ?_, ?_⟩
      · simp only [worldPtsOf]
        exact List.mem_map_of_mem _ hp
      · simp only [hminfin, hpe, jsSub_fin_fin, sub_self, jsDiv_fin_1000, zero_div]

/-- Witness for C4's amended theorem on the finite profile
`[{km:1, grade:10}]`. -/
theorem worldPts_relative_floor_witness :
    (∀ s ∈ ([⟨fin 1, fin 10⟩] : List Segment),
        (∃ a : ℚ, s.km = fin a) ∧ (∃ b : ℚ, s.grade = fin b))
    ∧ ((∀ p ∈ worldPtsOf [⟨fin 1, fin 10⟩], ∃ q : ℚ, p.Y = fin q ∧ 0 ≤ q)
        ∧ ∃ p ∈ worldPtsOf [⟨fin 1, fin 10⟩], p.Y = fin 0) := by
  have h : ∀ s ∈ ([⟨fin 1, fin 10⟩] : List Segment),
      (∃ a : ℚ, s.km = fin a) ∧ (∃ b : ℚ, s.grade = fin b) := by
    intro s hs
    simp only [List.mem_singleton] at hs
    subst hs
    exact ⟨⟨1, rfl⟩, ⟨10, rfl⟩⟩
  exact ⟨h, worldPts_relative_floor [⟨fin 1, fin 10⟩] h⟩

/-- Counterexample to C4 as stated over *all* segment lists: with the
non-finite grades `[{1, +∞}, {1, -∞}]` every derived world `Y` is NaN, so
no `Y` is `≥ 0` and the minimum is not 0. -/
theorem worldPts_nan_counterexample :
    (worldPtsOf [⟨fin 1, JSNum.inf⟩, ⟨fin 1, JSNum.ninf⟩]).map WorldPt.Y
      = [JSNum.nan, JSNum.nan, JSNum.nan]
    ∧ ¬ ∃ p ∈ worldPtsOf [⟨fin 1, JSNum.inf⟩, ⟨fin 1, JSNum.ninf⟩], p.Y = fin 0 := by
  have h : (worldPtsOf [⟨fin 1, JSNum.inf⟩, ⟨fin 1, JSNum.ninf⟩]).map WorldPt.Y
      = [JSNum.nan, JSNum.nan, JSNum.nan] := by
    norm_num [worldPtsOf, accumulate, accStep, riseOf, sanLen, sanGrade, jsMax, jsOr,
      truthy, jsAdd, jsMul, jsLt, jsLe, jsRound, jsMinList, jsMin, jsSub, jsNeg, jsDiv]
  refine ⟨h, ?_⟩
  rintro ⟨p, hp, hY⟩
  have : p.Y ∈ (worldPtsOf [⟨fin 1, JSNum.inf⟩, ⟨fin 1, JSNum.ninf⟩]).map WorldPt.Y :=
    List.mem_map_of_mem WorldPt.Y hp
  rw [h, hY] at this
  simp at this

/-! ### `niceStep`: candidate shape and closeness -/

lemma log10Aux_bounds :
    ∀ fuel n : ℕ, 1 ≤ n → n ≤ fuel →
      10 ^ log10Aux fuel n ≤ n ∧ n < 10 ^ (log10Aux fuel n + 1) := by
  intro fuel
  induction fuel with
  | zero => intro n h1 h0; omega
  | succ fuel ih =>
    intro n h1 hle
    rw [log10Aux]
    by_cases hn : n < 10
    · rw [if_pos hn]
      constructor
      · simpa using h1
      · simpa using hn
    · rw [if_neg hn]
      push_neg at hn
      have hm1 : 1 ≤ n / 10 := (Nat.one_le_div_iff (by norm_num)).mpr hn
      have hmfuel : n / 10 ≤ fuel := by
        have := Nat.div_lt_self (by omega : 0 < n) (by norm_num : 1 < 10)
        omega
      obtain ⟨hA1, hA2⟩ := ih (n / 10) hm1 hmfuel
      constructor
      · calc 10 ^ (log10Aux fuel (n / 10) + 1)
            = 10 ^ log10Aux fuel (n / 10) * 10 := by rw [pow_succ]
          _ ≤ n / 10 * 10 := Nat.mul_le_mul_right 10 hA1
          _ ≤ n := Nat.div_mul_le_self n 10
      · have hdm : 10 * (n / 10) + n % 10 = n := Nat.div_add_mod n 10
        have hmod : n % 10 < 10 := Nat.mod_lt _ (by norm_num)
        calc n < 10 * (n / 10 + 1) := by omega
          _ ≤ 10 * 10 ^ (log10Aux fuel (n / 10) + 1) := Nat.mul_le_mul_left 10 (by omega)
          _ = 10 ^ (log10Aux fuel (n / 10) + 1 + 1) := by rw [pow_succ]; ring

lemma natLog10_bounds (n : ℕ) (h : 1 ≤ n) :
    10 ^ natLog10 n ≤ n ∧ n < 10 ^ (natLog10 n + 1) :=
  log10Aux_bounds n n h le_rfl

lemma ilog10_bounds (q : ℚ) (hq : 0 < q) :
    pow10 (ilog10 q) ≤ q ∧ q < pow10 (ilog10 q + 1) := by
  rw [ilog10]
  by_cases h1 : 1 ≤ q
  · rw [if_pos h1]
    have hfl0 : (1 : ℤ) ≤ ⌊q⌋ := Int.le_floor.mpr (by exact_mod_cast h1)
    have hfl : (⌊q⌋ : ℤ) = ((⌊q⌋.toNat : ℕ) : ℤ) := (Int.toNat_of_nonneg (by omega)).symm
    have hn1 : 1 ≤ ⌊q⌋.toNat := by omega
    obtain ⟨hb1, hb2⟩ := natLog10_bounds ⌊q⌋.toNat hn1
    constructor
    · rw [pow10, zpow_natCast]
      calc ((10 : ℚ) ^ natLog10 ⌊q⌋.toNat) ≤ ((⌊q⌋.toNat : ℕ) : ℚ) := by exact_mod_cast hb1
        _ ≤ q := by
            have hfloor := Int.floor_le q
            have : ((⌊q⌋ : ℤ) : ℚ) = ((⌊q⌋.toNat : ℕ) : ℚ) := by exact_mod_cast hfl
            rw [this] at hfloor
            exact hfloor
    · have hcast : ((natLog10 ⌊q⌋.toNat : ℤ) + 1) = ((natLog10 ⌊q⌋.toNat + 1 : ℕ) : ℤ) := by
        push_cast
        ring
      rw [pow10, hcast, zpow_natCast]
      have hq1 : q < (⌊q⌋ : ℚ) + 1 := Int.lt_floor_add_one q
      have hqn : q < ((⌊q⌋.toNat : ℕ) : ℚ) + 1 := by
        have : ((⌊q⌋ : ℤ) : ℚ) = ((⌊q⌋.toNat : ℕ) : ℚ) := by exact_mod_cast hfl
        rw [this] at hq1
        exact hq1
      calc q < ((⌊q⌋.toNat : ℕ) : ℚ) + 1 := hqn
        _ ≤ (10 : ℚ) ^ (natLog10 ⌊q⌋.toNat + 1) := by exact_mod_cast Nat.succ_le_of_lt hb2
  · rw [if_neg h1]
    push_neg at h1
    have hr1 : 1 < q⁻¹ := by
      rw [← one_div]
      exact (one_lt_div hq).mpr h1
    have hrpos : 0 < q⁻¹ := by positivity
    have hfl0 : (1 : ℤ) ≤ ⌊q⁻¹⌋ := Int.le_floor.mpr (by exact_mod_cast le_of_lt hr1)
    have hfl : (⌊q⁻¹⌋ : ℤ) = ((⌊q⁻¹⌋.toNat : ℕ) : ℤ) := (Int.toNat_of_nonneg (by omega)).symm
    have hn1 : 1 ≤ ⌊q⁻¹⌋.toNat := by omega
    obtain ⟨hb1, hb2⟩ := natLog10_bounds ⌊q⁻¹⌋.toNat hn1
    have hcastfl : ((⌊q⁻¹⌋ : ℤ) : ℚ) = ((⌊q⁻¹⌋.toNat : ℕ) : ℚ) := by exact_mod_cast hfl
    have hkr : (10 : ℚ) ^ natLog10 ⌊q⁻¹⌋.toNat ≤ q⁻¹ := by
      calc ((10 : ℚ) ^ natLog10 ⌊q⁻¹⌋.toNat) ≤ ((⌊q⁻¹⌋.toNat : ℕ) : ℚ) := by exact_mod_cast hb1
        _ ≤ q⁻¹ := by rw [← hcastfl]; exact Int.floor_le _
    have hrk : q⁻¹ < (10 : ℚ) ^ (natLog10 ⌊q⁻¹⌋.toNat + 1) := by
      calc q⁻¹ < (⌊q⁻¹⌋ : ℚ) + 1 := Int.lt_floor_add_one _
        _ = ((⌊q⁻¹⌋.toNat : ℕ) : ℚ) + 1 := by rw [hcastfl]
        _ ≤ (10 : ℚ) ^ (natLog10 ⌊q⁻¹⌋.toNat + 1) := by exact_mod_cast Nat.succ_le_of_lt hb2
    set k : ℕ := natLog10 ⌊q⁻¹⌋.toNat with hkdef
    have hpowpos : (0 : ℚ) < (10 : ℚ) ^ k := by positivity
    by_cases he : q⁻¹ = (10 : ℚ) ^ k
    · rw [if_pos he]
      have hqe : q = ((10 : ℚ) ^ k)⁻¹ := by rw [← he, inv_inv]
      constructor
      · have hpq : pow10 (-(k : ℤ)) = q := by
          rw [pow10, zpow_neg, zpow_natCast, ← he, inv_inv]
        exact hpq.le
      · have hexp : (-(k : ℤ) + 1) = 1 - (k : ℤ) := by ring
        rw [pow10, hexp, zpow_sub₀ (by norm_num : (10 : ℚ) ≠ 0), zpow_one, zpow_natCast]
        have h10q : (10 : ℚ) / 10 ^ k = 10 * q := by
          rw [hqe, div_eq_mul_inv]
        rw [h10q]
        nlinarith [hq]
    · rw [if_neg he]
      have hrgt : (10 : ℚ) ^ k < q⁻¹ := lt_of_le_of_ne hkr (Ne.symm he)
      constructor
      · have hexp : (-((k : ℤ) + 1)) = -((k + 1 : ℕ) : ℤ) := by
          push_cast
          ring
        rw [pow10, hexp, zpow_neg, zpow_natCast]
        have h := inv_le_inv_of_le hrpos (le_of_lt hrk)
        rwa [inv_inv] at h
      · have hexp : (-((k : ℤ) + 1) + 1) = -(k : ℤ) := by ring
        rw [pow10, hexp, zpow_neg, zpow_natCast]
        have h := inv_lt_inv_of_lt hpowpos hrgt
        rwa [inv_inv] at h

lemma foldl_pickCloser_spec (t : ℚ) (l : List ℚ) :
    ∀ a : ℚ,
      (l.foldl (pickCloser t) a = a ∨ l.foldl (pickCloser t) a ∈ l)
      ∧ |l.foldl (pickCloser t) a - t| ≤ |a - t|
      ∧ ∀ x ∈ l, |l.foldl (pickCloser t) a - t| ≤ |x - t| := by
  induction l with
  | nil => exact fun a => ⟨Or.inl rfl, le_refl _, fun x hx => absurd hx (List.not_mem_nil x)⟩
  | cons v vs ih =>
    intro a
    obtain ⟨hmem, hinit, hall⟩ := ih (pickCloser t a v)
    have hpk : |pickCloser t a v - t| ≤ |a - t| ∧ |pickCloser t a v - t| ≤ |v - t| := by
      rw [pickCloser]
      split
      · constructor
        · linarith
        · exact le_refl _
      · constructor
        · exact le_refl _
        · linarith
    refine ⟨?_, ?_, ?_⟩
    · rcases hmem with h | h
      · rw [List.foldl_cons, h, pickCloser]
        split
        · exact Or.inr (List.mem_cons_self _ _)
        · exact Or.inl rfl
      · exact Or.inr (List.mem_cons_of_mem _ h)
    · exact le_trans hinit hpk.1
    · intro x hx
      rcases List.mem_cons.mp hx with rfl | hx'
      · exact le_trans hinit hpk.2
      · exact hall x hx'

/-- C7: for every positive range, `niceStep` returns `m * 10^k` with
`m ∈ {1, 2, 2.5, 5, 10}` and `k = ⌊log10 rough⌋` (so `10^k ≤ rough <
10^(k+1)`), and the returned candidate is at least as close to
`rough = range / max(1, maxTicks)` as every other candidate;
`niceStep 97 8 = 10`. -/
theorem niceStep_spec (range maxTicks : ℚ) (hr : 0 < range) :
    (∃ m ∈ [(1 : ℚ), 2, 2.5, 5, 10],
        niceStep range maxTicks = m * pow10 (ilog10 (range / max 1 maxTicks)))
    ∧ (∀ m ∈ [(1 : ℚ), 2, 2.5, 5, 10],
        |niceStep range maxTicks - range / max 1 maxTicks|
          ≤ |m * pow10 (ilog10 (range / max 1 maxTicks)) - range / max 1 maxTicks|)
    ∧ pow10 (ilog10 (range / max 1 maxTicks)) ≤ range / max 1 maxTicks
    ∧ range / max 1 maxTicks < 10 * pow10 (ilog10 (range / max 1 maxTicks))
    ∧ niceStep 97 8 = 10 := by
  have hroughpos : 0 < range / max 1 maxTicks :=
    div_pos hr (lt_of_lt_of_le one_pos (le_max_left 1 maxTicks))
  obtain ⟨hb1, hb2⟩ := ilog10_bounds (range / max 1 maxTicks) hroughpos
  have hfold := foldl_pickCloser_spec (range / max 1 maxTicks)
    ([(1 : ℚ), 2, 2.5, 5, 10].map (fun m => m * pow10 (ilog10 (range / max 1 maxTicks))))
    (([(1 : ℚ), 2, 2.5, 5, 10].map (fun m => m * pow10 (ilog10 (range / max 1 maxTicks)))).headD 0)
  obtain ⟨hmem, hinit, hall⟩ := hfold
  have hns : niceStep range maxTicks
      = ([(1 : ℚ), 2, 2.5, 5, 10].map (fun m => m * pow10 (ilog10 (range / max 1 maxTicks)))).foldl
          (pickCloser (range / max 1 maxTicks))
          (([(1 : ℚ), 2, 2.5, 5, 10].map (fun m => m * pow10 (ilog10 (range / max 1 maxTicks)))).headD 0) := rfl
  refine ⟨?_, ?_, hb1, ?_, ?_⟩
  · rw [hns]
    rcases hmem with h | h
    · rw [h]
      exact ⟨1, by norm_num⟩
    · obtain ⟨m, hm, hme⟩ := List.mem_map.mp h
      exact ⟨m, hm, hme.symm⟩
  · intro m hm
    rw [hns]
    exact hall _ (List.mem_map_of_mem _ hm)
  · have h10 : pow10 (ilog10 (range / max 1 maxTicks) + 1)
        = 10 * pow10 (ilog10 (range / max 1 maxTicks)) := by
      rw [pow10, pow10, zpow_add_one₀ (by norm_num : (10 : ℚ) ≠ 0)]
      ring
    rw [← h10]
    exact hb2
  · have hil : ilog10 ((97 : ℚ) / 8) = 1 := by
      have hfl : ⌊(97 : ℚ) / 8⌋ = 12 := by
        rw [Int.floor_eq_iff]
        norm_num
      rw [ilog10, if_pos (by norm_num : (1 : ℚ) ≤ 97 / 8), hfl,
        show (12 : ℤ).toNat = (12 : ℕ) from rfl]
      norm_num [natLog10, log10Aux]
    have hmax : max (1 : ℚ) 8 = 8 := by norm_num
    simp only [niceStep, hmax, hil, pow10]
    norm_num [pickCloser, List.foldl, abs]

/-- Witness for C7 at `range = 97`, `maxTicks = 8`. -/
theorem niceStep_spec_witness :
    ((0 : ℚ) < 97)
    ∧ ((∃ m ∈ [(1 : ℚ), 2, 2.5, 5, 10],
          niceStep 97 8 = m * pow10 (ilog10 ((97 : ℚ) / max 1 8)))
        ∧ (∀ m ∈ [(1 : ℚ), 2, 2.5, 5, 10],
            |niceStep 97 8 - (97 : ℚ) / max 1 8|
              ≤ |m * pow10 (ilog10 ((97 : ℚ) / max 1 8)) - (97 : ℚ) / max 1 8|)
        ∧ pow10 (ilog10 ((97 : ℚ) / max 1 8)) ≤ (97 : ℚ) / max 1 8
        ∧ (97 : ℚ) / max 1 8 < 10 * pow10 (ilog10 ((97 : ℚ) / max 1 8))
        ∧ niceStep 97 8 = 10) := by
  exact ⟨by norm_num, niceStep_spec 97 8 (by norm_num)⟩

/-! ### Fit-and-center invariant of `fitAxonBoundingRangeCentered` -/

lemma fitScale_pos (W H zMin zMax width height : ℝ) (margin : Margin) (params : AxonParams)
    (hW : 0 < width - margin.left - margin.right)
    (hH : 0 < height - margin.top - margin.bottom) :
    0 < fitScale W H zMin zMax width height margin params := by
  refine lt_min (div_pos hW ?_) (div_pos hH ?_)
  · exact lt_of_lt_of_le (by norm_num) (le_max_left _ _)
  · exact lt_of_lt_of_le (by norm_num) (le_max_left _ _)

/-- C2: for every world box and camera, and every canvas whose inner
rectangle has positive dimensions, the fitted projector keeps all 8
projected corners inside the inner rectangle, maps the projected bounding
rectangle's center exactly to the inner rectangle's center, and (for a
non-degenerate bounding box) uses the single uniform scale
`min(innerW / boundingW, innerH / boundingH)`. -/
theorem fitAxon_fits_and_centers (W H zMin zMax width height : ℝ) (margin : Margin)
    (params : AxonParams)
    (hW : 0 < width - margin.left - margin.right)
    (hH : 0 < height - margin.top - margin.bottom) :
    (∀ c ∈ worldCorners W H zMin zMax,
        margin.left ≤ (fitProject W H zMin zMax width height margin params c.1 c.2.1 c.2.2).1
        ∧ (fitProject W H zMin zMax width height margin params c.1 c.2.1 c.2.2).1 ≤ width - margin.right
        ∧ margin.top ≤ (fitProject W H zMin zMax width height margin params c.1 c.2.1 c.2.2).2
        ∧ (fitProject W H zMin zMax width height margin params c.1 c.2.1 c.2.2).2 ≤ height - margin.bottom)
    ∧ fitOx W H zMin zMax width height margin params
        + (bbMinX W H zMin zMax params + bbMaxX W H zMin zMax params) / 2
          * fitScale W H zMin zMax width height margin params
        = margin.left + (width - margin.left - margin.right) / 2
    ∧ fitOy W H zMin zMax width height margin params
        - (bbMinY W H zMin zMax params + bbMaxY W H zMin zMax params) / 2
          * fitScale W H zMin zMax width height margin params
        = margin.top + (height - margin.top - margin.bottom) / 2
    ∧ (1e-6 ≤ bbMaxX W H zMin zMax params - bbMinX W H zMin zMax params →
        1e-6 ≤ bbMaxY W H zMin zMax params - bbMinY W H zMin zMax params →
        fitScale W H zMin zMax width height margin params
          = min ((width - margin.left - margin.right)
                / (bbMaxX W H zMin zMax params - bbMinX W H zMin zMax params))
              ((height - margin.top - margin.bottom)
                / (bbMaxY W H zMin zMax params - bbMinY W H zMin zMax params))) := by
  have hspos := fitScale_pos W H zMin zMax width height margin params hW hH
  refine ⟨?_, by rw [fitOx]; ring, by rw [fitOy]; ring, ?_⟩
  · intro c hc
    have hpmem : axonProject c.1 c.2.1 c.2.2 params ∈ projCorners W H zMin zMax params := by
      rw [projCorners]
      exact List.mem_map_of_mem _ hc
    have h1 : bbMinX W H zMin zMax params ≤ (axonProject c.1 c.2.1 c.2.2 params).1 :=
      foldl_min_le_mem _ _ _ (List.mem_map_of_mem Prod.fst hpmem)
    have h2 : (axonProject c.1 c.2.1 c.2.2 params).1 ≤ bbMaxX W H zMin zMax params :=
      mem_le_foldl_max _ _ _ (List.mem_map_of_mem Prod.fst hpmem)
    have h3 : bbMinY W H zMin zMax params ≤ (axonProject c.1 c.2.1 c.2.2 params).2 :=
      foldl_min_le_mem _ _ _ (List.mem_map_of_mem Prod.snd hpmem)
    have h4 : (axonProject c.1 c.2.1 c.2.2 params).2 ≤ bbMaxY W H zMin zMax params :=
      mem_le_foldl_max _ _ _ (List.mem_map_of_mem Prod.snd hpmem)
    have hwx : (bbMaxX W H zMin zMax params - bbMinX W H zMin zMax params)
        * fitScale W H zMin zMax width height margin params
        ≤ width - margin.left - margin.right := by
      have ha : (0 : ℝ) < max 1e-6 (bbMaxX W H zMin zMax params - bbMinX W H zMin zMax params) :=
        lt_of_lt_of_le (by norm_num) (le_max_left _ _)
      have hb : fitScale W H zMin zMax width height margin params
          * max 1e-6 (bbMaxX W H zMin zMax params - bbMinX W H zMin zMax params)
          ≤ width - margin.left - margin.right := (le_div_iff ha).mp (min_le_left _ _)
      calc (bbMaxX W H zMin zMax params - bbMinX W H zMin zMax params)
            * fitScale W H zMin zMax width height margin params
          ≤ max 1e-6 (bbMaxX W H zMin zMax params - bbMinX W H zMin zMax params)
            * fitScale W H zMin zMax width height margin params :=
            mul_le_mul_of_nonneg_right (le_max_right _ _) hspos.le
        _ = fitScale W H zMin zMax width height margin params
            * max 1e-6 (bbMaxX W H zMin zMax params - bbMinX W H zMin zMax params) := mul_comm _ _
        _ ≤ _ := hb
    have hwy : (bbMaxY W H zMin zMax params - bbMinY W H zMin zMax params)
        * fitScale W H zMin zMax width height margin params
        ≤ height - margin.top - margin.bottom := by
      have ha : (0 : ℝ) < max 1e-6 (bbMaxY W H zMin zMax params - bbMinY W H zMin zMax params) :=
        lt_of_lt_of_le (by norm_num) (le_max_left _ _)
      have hb : fitScale W H zMin zMax width height margin params
          * max 1e-6 (bbMaxY W H zMin zMax params - bbMinY W H zMin zMax params)
          ≤ height - margin.top - margin.bottom := (le_div_iff ha).mp (min_le_right _ _)
      calc (bbMaxY W H zMin zMax params - bbMinY W H zMin zMax params)
            * fitScale W H zMin zMax width height margin params
          ≤ max 1e-6 (bbMaxY W H zMin zMax params - bbMinY W H zMin zMax params)
            * fitScale W H zMin zMax width height margin params :=
            mul_le_mul_of_nonneg_right (le_max_right _ _) hspos.le
        _ = fitScale W H zMin zMax width height margin params
            * max 1e-6 (bbMaxY W H zMin zMax params - bbMinY W H zMin zMax params) := mul_comm _ _
        _ ≤ _ := hb
    have e1 := mul_le_mul_of_nonneg_right h1 hspos.le
    have e2 := mul_le_mul_of_nonneg_right h2 hspos.le
    have e3 := mul_le_mul_of_nonneg_right h3 hspos.le
    have e4 := mul_le_mul_of_nonneg_right h4 hspos.le
    refine ⟨?_, ?_, ?_, ?_⟩ <;>
      · simp only [fitProject, fitOx, fitOy]
        linarith
  · intro hx hy
    rw [fitScale, max_eq_right hx, max_eq_right hy]

/-- Witness for C2: the unit-ish box `[0,4]×[0,3]×[-1,2]` with the
identity camera in a `100×100` canvas with 10-pixel margins. -/
theorem fitAxon_fits_and_centers_witness :
    ((0 : ℝ) < 100 - (Margin.mk 10 10 10 10).left - (Margin.mk 10 10 10 10).right)
    ∧ ((0 : ℝ) < 100 - (Margin.mk 10 10 10 10).top - (Margin.mk 10 10 10 10).bottom)
    ∧ ((∀ c ∈ worldCorners (4 : ℝ) 3 (-1) 2,
          (Margin.mk 10 10 10 10).left
            ≤ (fitProject 4 3 (-1) 2 100 100 (Margin.mk 10 10 10 10) ⟨0, 0, 0, 1, 1⟩ c.1 c.2.1 c.2.2).1
          ∧ (fitProject 4 3 (-1) 2 100 100 (Margin.mk 10 10 10 10) ⟨0, 0, 0, 1, 1⟩ c.1 c.2.1 c.2.2).1
              ≤ 100 - (Margin.mk 10 10 10 10).right
          ∧ (Margin.mk 10 10 10 10).top
              ≤ (fitProject 4 3 (-1) 2 100 100 (Margin.mk 10 10 10 10) ⟨0, 0, 0, 1, 1⟩ c.1 c.2.1 c.2.2).2
          ∧ (fitProject 4 3 (-1) 2 100 100 (Margin.mk 10 10 10 10) ⟨0, 0, 0, 1, 1⟩ c.1 c.2.1 c.2.2).2
              ≤ 100 - (Margin.mk 10 10 10 10).bottom)
        ∧ fitOx 4 3 (-1) 2 100 100 (Margin.mk 10 10 10 10) ⟨0, 0, 0, 1, 1⟩
            + (bbMinX 4 3 (-1) 2 ⟨0, 0, 0, 1, 1⟩ + bbMaxX 4 3 (-1) 2 ⟨0, 0, 0, 1, 1⟩) / 2
              * fitScale 4 3 (-1) 2 100 100 (Margin.mk 10 10 10 10) ⟨0, 0, 0, 1, 1⟩
            = (Margin.mk 10 10 10 10).left
              + (100 - (Margin.mk 10 10 10 10).left - (Margin.mk 10 10 10 10).right) / 2
        ∧ fitOy 4 3 (-1) 2 100 100 (Margin.mk 10 10 10 10) ⟨0, 0, 0, 1, 1⟩
            - (bbMinY 4 3 (-1) 2 ⟨0, 0, 0, 1, 1⟩ + bbMaxY 4 3 (-1) 2 ⟨0, 0, 0, 1, 1⟩) / 2
              * fitScale 4 3 (-1) 2 100 100 (Margin.mk 10 10 10 10) ⟨0, 0, 0, 1, 1⟩
            = (Margin.mk 10 10 10 10).top
              + (100 - (Margin.mk 10 10 10 10).top - (Margin.mk 10 10 10 10).bottom) / 2
        ∧ (1e-6 ≤ bbMaxX 4 3 (-1) 2 ⟨0, 0, 0, 1, 1⟩ - bbMinX 4 3 (-1) 2 ⟨0, 0, 0, 1, 1⟩ →
            1e-6 ≤ bbMaxY 4 3 (-1) 2 ⟨0, 0, 0, 1, 1⟩ - bbMinY 4 3 (-1) 2 ⟨0, 0, 0, 1, 1⟩ →
            fitScale 4 3 (-1) 2 100 100 (Margin.mk 10 10 10 10) ⟨0, 0, 0, 1, 1⟩
              = min ((100 - (Margin.mk 10 10 10 10).left - (Margin.mk 10 10 10 10).right)
                    / (bbMaxX 4 3 (-1) 2 ⟨0, 0, 0, 1, 1⟩ - bbMinX 4 3 (-1) 2 ⟨0, 0, 0, 1, 1⟩))
                  ((100 - (Margin.mk 10 10 10 10).top - (Margin.mk 10 10 10 10).bottom)
                    / (bbMaxY 4 3 (-1) 2 ⟨0, 0, 0, 1, 1⟩ - bbMinY 4 3 (-1) 2 ⟨0, 0, 0, 1, 1⟩)))) := by
  refine ⟨by norm_num, by norm_num, ?_⟩
  exact fitAxon_fits_and_centers 4 3 (-1) 2 100 100 (Margin.mk 10 10 10 10) ⟨0, 0, 0, 1, 1⟩
    (by norm_num) (by norm_num)

/-! ### The shelf vector's screen length -/

lemma axonProject_zero (p : AxonParams) : axonProject 0 0 0 p = (0, 0) := by
  simp [axonProject]

lemma axonProject_unitY (p : AxonParams) :
    axonProject 0 1 0 p
      = (-(Real.sin (DEG p.rollDeg)) * (Real.cos (DEG p.pitchDeg) * p.verticalExaggeration),
         Real.cos (DEG p.rollDeg) * (Real.cos (DEG p.pitchDeg) * p.verticalExaggeration)) := by
  simp only [axonProject, Prod.mk.injEq]
  constructor <;> ring

lemma hypot_mul_right (x y t : ℝ) : hypot (x * t) (y * t) = hypot x y * |t| := by
  rw [hypot, hypot, show (x * t) ^ 2 + (y * t) ^ 2 = (x ^ 2 + y ^ 2) * t ^ 2 from by ring,
    Real.sqrt_mul (by positivity), Real.sqrt_sq_eq_abs]

/-- C3 (amended): whenever the projected world-up direction is nonzero —
`cos(pitch) ≠ 0` and `verticalExaggeration ≠ 0` — and the inner canvas
rectangle is positive and the configured pixel height nonnegative, the
screen-space shelf vector has length exactly `shelfPx`, regardless of yaw,
roll, and xScale. -/
theorem shelfVec_length (W H zMin zMax width height : ℝ) (margin : Margin)
    (params : AxonParams) (shelfPx : ℝ)
    (hW : 0 < width - margin.left - margin.right)
    (hH : 0 < height - margin.top - margin.bottom)
    (hpx : 0 ≤ shelfPx)
    (hcp : Real.cos (DEG params.pitchDeg) ≠ 0)
    (hv : params.verticalExaggeration ≠ 0) :
    hypot (shelfVec W H zMin zMax width height margin params shelfPx).1
      (shelfVec W H zMin zMax width height margin params shelfPx).2 = shelfPx := by
  have hspos := fitScale_pos W H zMin zMax width height margin params hW hH
  have hvx : (fitProject W H zMin zMax width height margin params 0 1 0).1
      - (fitProject W H zMin zMax width height margin params 0 0 0).1
      = (axonProject 0 1 0 params).1 * fitScale W H zMin zMax width height margin params := by
    simp only [fitProject, axonProject_zero]
    ring
  have hvy : (fitProject W H zMin zMax width height margin params 0 1 0).2
      - (fitProject W H zMin zMax width height margin params 0 0 0).2
      = -((axonProject 0 1 0 params).2 * fitScale W H zMin zMax width height margin params) := by
    simp only [fitProject, axonProject_zero]
    ring
  have hsum : ((axonProject 0 1 0 params).1 * fitScale W H zMin zMax width height margin params) ^ 2
      + (-((axonProject 0 1 0 params).2 * fitScale W H zMin zMax width height margin params)) ^ 2
      = (fitScale W H zMin zMax width height margin params
          * (Real.cos (DEG params.pitchDeg) * params.verticalExaggeration)) ^ 2 := by
    rw [axonProject_unitY]
    have hrl := Real.sin_sq_add_cos_sq (DEG params.rollDeg)
    dsimp only
    linear_combination (fitScale W H zMin zMax width height margin params
      * (Real.cos (DEG params.pitchDeg) * params.verticalExaggeration)) ^ 2 * hrl
  have hLval : hypot
      ((fitProject W H zMin zMax width height margin params 0 1 0).1
        - (fitProject W H zMin zMax width height margin params 0 0 0).1)
      ((fitProject W H zMin zMax width height margin params 0 1 0).2
        - (fitProject W H zMin zMax width height margin params 0 0 0).2)
      = |fitScale W H zMin zMax width height margin params
          * (Real.cos (DEG params.pitchDeg) * params.verticalExaggeration)| := by
    rw [hypot, hvx, hvy, hsum, Real.sqrt_sq_eq_abs]
  have hLpos : 0 < hypot
      ((fitProject W H zMin zMax width height margin params 0 1 0).1
        - (fitProject W H zMin zMax width height margin params 0 0 0).1)
      ((fitProject W H zMin zMax width height margin params 0 1 0).2
        - (fitProject W H zMin zMax width height margin params 0 0 0).2) := by
    rw [hLval]
    exact abs_pos.mpr (mul_ne_zero hspos.ne' (mul_ne_zero hcp hv))
  set L := hypot
      ((fitProject W H zMin zMax width height margin params 0 1 0).1
        - (fitProject W H zMin zMax width height margin params 0 0 0).1)
      ((fitProject W H zMin zMax width height margin params 0 1 0).2
        - (fitProject W H zMin zMax width height margin params 0 0 0).2) with hLdef
  have horone : orOne L = L := if_neg hLpos.ne'
  have hshelf : shelfVec W H zMin zMax width height margin params shelfPx
      = (((fitProject W H zMin zMax width height margin params 0 1 0).1
          - (fitProject W H zMin zMax width height margin params 0 0 0).1) * (shelfPx / L),
         ((fitProject W H zMin zMax width height margin params 0 1 0).2
          - (fitProject W H zMin zMax width height margin params 0 0 0).2) * (shelfPx / L)) := by
    rw [shelfVec]
    simp only [← hLdef, horone, Prod.mk.injEq]
    constructor <;> ring
  rw [hshelf]
  simp only
  rw [hypot_mul_right, ← hLdef, abs_of_nonneg (div_nonneg hpx hLpos.le)]
  field_simp

/-- Counterexample to C3 as stated for *every* camera parameter setting:
with `verticalExaggeration = 0` the projected world-up direction is the
zero vector, the `|| 1` fallback kicks in, and the shelf vector is zero —
its length is 0, not the configured 70 pixels. -/
theorem shelfVec_zero_counterexample :
    hypot (shelfVec 1 1 0 1 100 100 (Margin.mk 10 10 10 10) ⟨0, 0, 0, 1, 0⟩ 70).1
      (shelfVec 1 1 0 1 100 100 (Margin.mk 10 10 10 10) ⟨0, 0, 0, 1, 0⟩ 70).2 = 0
    ∧ (0 : ℝ) ≠ 70 := by
  have ha1 : axonProject 0 1 0 (⟨0, 0, 0, 1, 0⟩ : AxonParams) = (0, 0) := by
    simp [axonProject]
  have ha0 : axonProject 0 0 0 (⟨0, 0, 0, 1, 0⟩ : AxonParams) = (0, 0) := by
    simp [axonProject]
  constructor
  · have hz : shelfVec 1 1 0 1 100 100 (Margin.mk 10 10 10 10) ⟨0, 0, 0, 1, 0⟩ 70 = (0, 0) := by
      rw [shelfVec]
      simp only [fitProject, ha1, ha0]
      norm_num
    rw [hz]
    simp [hypot]
  · norm_num

/-- Witness for C3's amended theorem with the default-style camera
`yaw = pitch = roll = 0, xScale = 1, verticalExaggeration = 1` and a
70-pixel shelf. -/
theorem shelfVec_length_witness :
    ((0 : ℝ) < 100 - (Margin.mk 10 10 10 10).left - (Margin.mk 10 10 10 10).right)
    ∧ ((0 : ℝ) < 100 - (Margin.mk 10 10 10 10).top - (Margin.mk 10 10 10 10).bottom)
    ∧ ((0 : ℝ) ≤ 70)
    ∧ Real.cos (DEG (⟨0, 0, 0, 1, 1⟩ : AxonParams).pitchDeg) ≠ 0
    ∧ (⟨0, 0, 0, 1, 1⟩ : AxonParams).verticalExaggeration ≠ 0
    ∧ hypot (shelfVec 1 1 0 1 100 100 (Margin.mk 10 10 10 10) ⟨0, 0, 0, 1, 1⟩ 70).1
        (shelfVec 1 1 0 1 100 100 (Margin.mk 10 10 10 10) ⟨0, 0, 0, 1, 1⟩ 70).2 = 70 := by
  have hcp : Real.cos (DEG (⟨0, 0, 0, 1, 1⟩ : AxonParams).pitchDeg) ≠ 0 := by
    norm_num [DEG]
  have hv : (⟨0, 0, 0, 1, 1⟩ : AxonParams).verticalExaggeration ≠ 0 := by norm_num
  exact ⟨by norm_num, by norm_num, by norm_num, hcp, hv,
    shelfVec_length 1 1 0 1 100 100 (Margin.mk 10 10 10 10) ⟨0, 0, 0, 1, 1⟩ 70
      (by norm_num) (by norm_num) (by norm_num) hcp hv⟩

/-- C8: with `yaw = pitch = roll = 0`, `xScale = 1`,
`verticalExaggeration = 1`, the raw axonometric projector is the identity
on the screen plane. -/
theorem axonProject_identity (X Y Z : ℝ) :
    axonProject X Y Z ⟨0, 0, 0, 1, 1⟩ = (X, Y) := by
  simp only [axonProject, DEG]
  norm_num

/-! ### `binByDistance` and `totalGain` from the Strava route -/

lemma pushBin_prevD (st : BinState) : (pushBin st).prevD = st.prevD := by
  rw [pushBin]
  split <;> rfl

lemma pushBin_prevE (st : BinState) : (pushBin st).prevE = st.prevE := by
  rw [pushBin]
  split <;> rfl

lemma pushBin_nextEdge (st : BinState) : (pushBin st).nextEdge = st.nextEdge := by
  rw [pushBin]
  split <;> rfl

lemma pushBin_pos (st : BinState) (h : 0 < st.accDist) :
    pushBin st = { st with
      result := st.result ++ [⟨toFixed3 st.accDist, toFixed2 (st.accRise / (st.accDist * 1000) * 100)⟩]
      accDist := 0
      accRise := 0 } := by
  rw [pushBin, if_neg (not_le.mpr h)]

/-- One unfolding of the edge-crossing loop when an edge is crossed and
the current bin is non-empty. -/
lemma crossEdges_step (pts : List RawPt) (binKm d : ℚ) (st : BinState)
    (hb : 0 < binKm) (hd : ¬ d < st.nextEdge)
    (hpos : 0 < st.accDist + (st.nextEdge - st.prevD)) :
    crossEdges pts binKm d st = crossEdges pts binKm d
      { prevD := st.nextEdge
        prevE := getElevAt pts st.nextEdge
        nextEdge := st.nextEdge + binKm
        accDist := 0
        accRise := 0
        result := st.result ++ [⟨toFixed3 (st.accDist + (st.nextEdge - st.prevD)),
          toFixed2 ((st.accRise + (getElevAt pts st.nextEdge - st.prevE))
            / ((st.accDist + (st.nextEdge - st.prevD)) * 1000) * 100)⟩] } := by
  have hA := pushBin_pos
    { st with
      accDist := st.accDist + (st.nextEdge - st.prevD)
      accRise := st.accRise + (getElevAt pts st.nextEdge - st.prevE) }
    (by simpa using hpos)
  rw [crossEdges, dif_neg (by push_neg; exact ⟨hb, not_lt.mp hd⟩)]
  simp only [hA]

/-- Exiting the edge-crossing loop. -/
lemma crossEdges_exit (pts : List RawPt) (binKm d : ℚ) (st : BinState)
    (hd : d < st.nextEdge) :
    crossEdges pts binKm d st = st := by
  rw [crossEdges, dif_pos (Or.inr hd)]

lemma interpFind_mem (a : RawPt) (l : List RawPt)
    (hpw : (a :: l).Pairwise (fun x y => x.d < y.d)) :
    ∀ p ∈ l, interpFind a l p.d = some p.elev := by
  induction l generalizing a with
  | nil => intro p hp; cases hp
  | cons b l2 ih =>
    intro p hp
    have hab : a.d < b.d := (List.pairwise_cons.mp hpw).1 b (List.mem_cons_self _ _)
    rcases List.mem_cons.mp hp with rfl | hp2
    · rw [interpFind, if_pos ⟨le_of_lt hab, le_refl _, hab⟩]
      have hne : p.d - a.d ≠ 0 := sub_ne_zero.mpr (ne_of_gt hab)
      rw [div_self hne]
      congr 1
      ring
    · have hbp : b.d < p.d :=
        (List.pairwise_cons.mp (List.pairwise_cons.mp hpw).2).1 p hp2
      rw [interpFind, if_neg (fun h => absurd h.2.1 (not_le.mpr hbp))]
      exact ih b (List.pairwise_cons.mp hpw).2 p hp2

lemma interpFind_head (a b : RawPt) (l : List RawPt) (hab : a.d < b.d) :
    interpFind a (b :: l) a.d = some a.elev := by
  rw [interpFind, if_pos ⟨le_refl _, le_of_lt hab, hab⟩, sub_self, zero_div, zero_mul, add_zero]

/-- On a strictly increasing distance stream, the edge interpolation is
exact at every sample. -/
lemma getElevAt_self (pts : List RawPt)
    (hpw : pts.Pairwise (fun x y => x.d < y.d)) :
    ∀ p ∈ pts, getElevAt pts p.d = p.elev := by
  cases pts with
  | nil => intro p hp; cases hp
  | cons a l =>
    intro p hp
    rcases List.mem_cons.mp hp with rfl | hp2
    · cases l with
      | nil => rfl
      | cons b l2 =>
        have hab : p.d < b.d := (List.pairwise_cons.mp hpw).1 b (List.mem_cons_self _ _)
        rw [getElevAt, interpFind_head p b l2 hab]
        rfl
    · rw [getElevAt, interpFind_mem a l hpw p hp2]
      rfl

lemma crossEdges_strong (pts : List RawPt) (d0 binKm d : ℚ) (hb : 0 < binKm) :
    ∀ (n : ℕ) (st : BinState), (⌈(d - st.nextEdge) / binKm⌉ + 1).toNat ≤ n →
      BinLoopInv pts d0 binKm st →
      BinLoopInv pts d0 binKm (crossEdges pts binKm d st)
      ∧ d < (crossEdges pts binKm d st).nextEdge
      ∧ (crossEdges pts binKm d st = st
          ∨ ((crossEdges pts binKm d st).prevD ≤ d
              ∧ (crossEdges pts binKm d st).prevE
                  = getElevAt pts (crossEdges pts binKm d st).prevD)) := by
  intro n
  induction n with
  | zero =>
    intro st hm hinv
    have hx : d < st.nextEdge := by
      by_contra hcon
      push_neg at hcon
      have h0 : (0 : ℚ) ≤ (d - st.nextEdge) / binKm := div_nonneg (by linarith) hb.le
      have h1 : (0 : ℤ) ≤ ⌈(d - st.nextEdge) / binKm⌉ := Int.ceil_nonneg h0
      omega
    rw [crossEdges_exit pts binKm d st hx]
    exact ⟨hinv, hx, Or.inl rfl⟩
  | succ n ih =>
    intro st hm hinv
    by_cases hd : d < st.nextEdge
    · rw [crossEdges_exit pts binKm d st hd]
      exact ⟨hinv, hd, Or.inl rfl⟩
    · obtain ⟨h1, h2, h3, h4, h6⟩ := hinv
      have hpos : 0 < st.accDist + (st.nextEdge - st.prevD) := by
        rw [h1]
        linarith
      have hlen : st.accDist + (st.nextEdge - st.prevD) = binKm := by
        rw [h1]
        ring
      have hrise : st.accRise + (getElevAt pts st.nextEdge - st.prevE)
          = getElevAt pts (d0 + ((st.result.length : ℚ) + 1) * binKm)
            - getElevAt pts (d0 + (st.result.length : ℚ) * binKm) := by
        rw [h4, h3]
        ring
      have hbinq : (⟨toFixed3 (st.accDist + (st.nextEdge - st.prevD)),
          toFixed2 ((st.accRise + (getElevAt pts st.nextEdge - st.prevE))
            / ((st.accDist + (st.nextEdge - st.prevD)) * 1000) * 100)⟩ : Bin)
          = fullBinAt pts d0 binKm st.result.length := by
        rw [fullBinAt, hlen, hrise]
      rw [crossEdges_step pts binKm d st hb hd hpos, hbinq]
      have hd2 : st.nextEdge ≤ d := not_lt.mp hd
      have hm2 : (⌈(d - (st.nextEdge + binKm)) / binKm⌉ + 1).toNat ≤ n := by
        have hx0 : (0 : ℚ) ≤ (d - st.nextEdge) / binKm := div_nonneg (by linarith) hb.le
        have hx1 : (0 : ℤ) ≤ ⌈(d - st.nextEdge) / binKm⌉ := Int.ceil_nonneg hx0
        have hsub : (d - (st.nextEdge + binKm)) / binKm = (d - st.nextEdge) / binKm - 1 := by
          field_simp
          ring
        rw [hsub, Int.ceil_sub_one]
        omega
      have hinv2 : BinLoopInv pts d0 binKm
          { prevD := st.nextEdge
            prevE := getElevAt pts st.nextEdge
            nextEdge := st.nextEdge + binKm
            accDist := 0
            accRise := 0
            result := st.result ++ [fullBinAt pts d0 binKm st.result.length] } := by
        refine ⟨?_, ?_, ?_, ?_, ?_⟩
        · show (0 : ℚ) = st.nextEdge - (st.nextEdge + binKm - binKm)
          ring
        · show st.nextEdge < st.nextEdge + binKm
          linarith
        · show st.nextEdge + binKm
            = d0 + (((st.result ++ [fullBinAt pts d0 binKm st.result.length]).length : ℚ) + 1) * binKm
          rw [h3]
          simp only [List.length_append, List.length_cons, List.length_nil]
          push_cast
          ring
        · show (0 : ℚ) = getElevAt pts st.nextEdge - getElevAt pts
            (d0 + (((st.result ++ [fullBinAt pts d0 binKm st.result.length]).length : ℚ)) * binKm)
          rw [h3]
          simp only [List.length_append, List.length_cons, List.length_nil]
          push_cast
          ring_nf
        · show st.result ++ [fullBinAt pts d0 binKm st.result.length]
            = (List.range (st.result ++ [fullBinAt pts d0 binKm st.result.length]).length).map
                (fullBinAt pts d0 binKm)
          simp only [List.length_append, List.length_cons, List.length_nil]
          rw [List.range_succ, List.map_append, ← h6]
          simp
      obtain ⟨hinvr, hdr, hdisj⟩ := ih
        { prevD := st.nextEdge
          prevE := getElevAt pts st.nextEdge
          nextEdge := st.nextEdge + binKm
          accDist := 0
          accRise := 0
          result := st.result ++ [fullBinAt pts d0 binKm st.result.length] } hm2 hinv2
      refine ⟨hinvr, hdr, Or.inr ?_⟩
      rcases hdisj with heq | ⟨hle, hpe⟩
      · rw [heq]
        exact ⟨hd2, rfl⟩
      · exact ⟨hle, hpe⟩

lemma binStep_strong (pts : List RawPt) (d0 binKm : ℚ) (hb : 0 < binKm)
    (st : BinState) (p : RawPt) (hinv : BinLoopInv pts d0 binKm st)
    (hqd : st.prevD < p.d) (hpe : getElevAt pts p.d = p.elev) :
    BinLoopInv pts d0 binKm (binStep pts binKm st p)
    ∧ (binStep pts binKm st p).prevD = p.d
    ∧ (binStep pts binKm st p).prevE = p.elev := by
  obtain ⟨hinv1, hd1, hdisj⟩ := crossEdges_strong pts d0 binKm p.d hb _ st le_rfl hinv
  rw [binStep]
  split
  · obtain ⟨h1, h2, h3, h4, h6⟩ := hinv1
    refine ⟨⟨?_, ?_, ?_, ?_, ?_⟩, rfl, rfl⟩
    · show (crossEdges pts binKm p.d st).accDist + (p.d - (crossEdges pts binKm p.d st).prevD)
        = p.d - ((crossEdges pts binKm p.d st).nextEdge - binKm)
      rw [h1]
      ring
    · show p.d < (crossEdges pts binKm p.d st).nextEdge
      exact hd1
    · exact h3
    · show (crossEdges pts binKm p.d st).accRise + (p.elev - (crossEdges pts binKm p.d st).prevE)
        = p.elev - getElevAt pts (d0 + ((crossEdges pts binKm p.d st).result.length : ℚ) * binKm)
      rw [h4]
      ring
    · exact h6
  · rename_i hle
    push_neg at hle
    rcases hdisj with heq | ⟨hple, hpeE⟩
    · exfalso
      rw [heq] at hle
      linarith
    · have hpd : (crossEdges pts binKm p.d st).prevD = p.d := le_antisymm hple (by linarith)
      exact ⟨hinv1, hpd, by rw [hpeE, hpd, hpe]⟩

lemma foldl_binStep_strong (pts : List RawPt) (d0 binKm : ℚ) (hb : 0 < binKm) :
    ∀ (l : List RawPt) (st : BinState) (q : RawPt),
      (∀ x ∈ l, getElevAt pts x.d = x.elev) →
      List.Chain' (fun a b => a.d < b.d) (q :: l) →
      BinLoopInv pts d0 binKm st → st.prevD = q.d → st.prevE = q.elev →
      BinLoopInv pts d0 binKm (l.foldl (binStep pts binKm) st)
      ∧ (l.foldl (binStep pts binKm) st).prevD = (l.getLastD q).d
      ∧ (l.foldl (binStep pts binKm) st).prevE = (l.getLastD q).elev := by
  intro l
  induction l with
  | nil =>
    intro st q _ _ hinv hpd hpe
    exact ⟨hinv, hpd, hpe⟩
  | cons p l2 ih =>
    intro st q hself hchain hinv hpd hpe
    have hqp : q.d < p.d := (List.chain'_cons.mp hchain).1
    obtain ⟨hinv1, hpd1, hpe1⟩ := binStep_strong pts d0 binKm hb st p hinv
      (by rw [hpd]; exact hqp) (hself p (List.mem_cons_self _ _))
    have hres := ih (binStep pts binKm st p) p
      (fun x hx => hself x (List.mem_cons_of_mem _ hx))
      (List.chain'_cons.mp hchain).2 hinv1 hpd1 hpe1
    rw [List.foldl_cons, List.getLastD_cons]
    exact hres

lemma posDeltaSum_cons_cons (p b : RawPt) (r' : List RawPt) :
    posDeltaSum (p :: b :: r')
      = (if 0 < b.elev - p.elev then b.elev - p.elev else 0) + posDeltaSum (b :: r') := by
  simp only [posDeltaSum, List.zip_cons_cons, List.tail_cons, List.map_cons, List.filter_cons]
  by_cases hcond : 0 < b.elev - p.elev
  · rw [if_pos (by simpa using hcond), if_pos hcond, List.sum_cons]
  · rw [if_neg (by simpa using hcond), if_neg hcond, zero_add]

lemma gainAux_eq_posDeltaSum : ∀ (rest : List RawPt) (p : RawPt),
    gainAux p rest = posDeltaSum (p :: rest) := by
  intro rest
  induction rest with
  | nil => intro p; rfl
  | cons b r' ih =>
    intro p
    rw [gainAux, ih b, posDeltaSum_cons_cons]

lemma totalGain_eq (points : List RawPt) :
    totalGain points = roundQ (posDeltaSum points) := by
  cases points with
  | nil => rfl
  | cons p rest => rw [totalGain, gainAux_eq_posDeltaSum]

/-- C9 (amended): for every non-empty raw point list with strictly
increasing distances and every positive bin size, `binByDistance` emits
`n` full bins followed by at most one partial bin. Full bin `j` spans
`[d0 + j*binKm, d0 + (j+1)*binKm]` and its grade is the rise between the
edge-interpolated elevations at those two edges over `binKm * 1000`
meters, times 100 (rounded to 2 decimals; `km` rounded to 3). The final
bin, if present, is strictly shorter (`0 < len < binKm`, running from the
last crossed edge to the last sample) and uses its *own* length: grade
`= ((lastElev - E(d0 + n*binKm)) / (len * 1000)) * 100`. On the empty
list the result is empty, and `totalGain` is the rounded sum of only the
positive elevation deltas between consecutive points. -/
theorem binByDistance_spec (p0 : RawPt) (rest : List RawPt) (binKm : ℚ) (hb : 0 < binKm)
    (hmono : (p0 :: rest).Pairwise (fun a b => a.d < b.d)) :
    (∃ n : ℕ,
      binByDistance (p0 :: rest) binKm
          = (List.range n).map (fullBinAt (p0 :: rest) p0.d binKm)
      ∨ (binByDistance (p0 :: rest) binKm
            = (List.range n).map (fullBinAt (p0 :: rest) p0.d binKm)
              ++ [⟨toFixed3 ((rest.getLastD p0).d - (p0.d + (n : ℚ) * binKm)),
                  toFixed2 (((rest.getLastD p0).elev
                      - getElevAt (p0 :: rest) (p0.d + (n : ℚ) * binKm))
                    / (((rest.getLastD p0).d - (p0.d + (n : ℚ) * binKm)) * 1000) * 100)⟩]
          ∧ 0 < (rest.getLastD p0).d - (p0.d + (n : ℚ) * binKm)
          ∧ (rest.getLastD p0).d - (p0.d + (n : ℚ) * binKm) < binKm))
    ∧ binByDistance ([] : List RawPt) binKm = []
    ∧ totalGain (p0 :: rest) = roundQ (posDeltaSum (p0 :: rest)) := by
  refine ⟨?_, rfl, totalGain_eq (p0 :: rest)⟩
  have hE0 : getElevAt (p0 :: rest) p0.d = p0.elev :=
    getElevAt_self (p0 :: rest) hmono p0 (List.mem_cons_self _ _)
  have hinv0 : BinLoopInv (p0 :: rest) p0.d binKm
      (⟨p0.d, p0.elev, p0.d + binKm, 0, 0, []⟩ : BinState) := by
    refine ⟨?_, ?_, ?_, ?_, ?_⟩
    · show (0 : ℚ) = p0.d - (p0.d + binKm - binKm)
      ring
    · show p0.d < p0.d + binKm
      linarith
    · show p0.d + binKm = p0.d + ((([] : List Bin).length : ℚ) + 1) * binKm
      norm_num
    · show (0 : ℚ) = p0.elev
        - getElevAt (p0 :: rest) (p0.d + ((([] : List Bin).length : ℚ)) * binKm)
      rw [show p0.d + ((([] : List Bin).length : ℚ)) * binKm = p0.d from by norm_num, hE0]
      ring
    · rfl
  obtain ⟨hinvF, hpdF, hpeF⟩ := foldl_binStep_strong (p0 :: rest) p0.d binKm hb rest
    (⟨p0.d, p0.elev, p0.d + binKm, 0, 0, []⟩ : BinState) p0
    (fun x hx => getElevAt_self (p0 :: rest) hmono x (List.mem_cons_of_mem _ hx))
    (List.Pairwise.chain' hmono)
    hinv0 rfl rfl
  set stF := rest.foldl (binStep (p0 :: rest) binKm)
    (⟨p0.d, p0.elev, p0.d + binKm, 0, 0, []⟩ : BinState) with hstF
  obtain ⟨h1, h2, h3, h4, h6⟩ := hinvF
  set n := stF.result.length with hn
  refine ⟨n, ?_⟩
  have hfin : binByDistance (p0 :: rest) binKm = (pushBin stF).result := by
    rw [hstF]
    rfl
  by_cases hpos : 0 < stF.accDist
  · have hres : (pushBin stF).result
        = stF.result ++ [⟨toFixed3 stF.accDist, toFixed2 (stF.accRise / (stF.accDist * 1000) * 100)⟩] := by
      rw [pushBin_pos stF hpos]
    have hlenq : stF.accDist
        = (rest.getLastD p0).d - (p0.d + (n : ℚ) * binKm) := by
      rw [h1, hpdF, h3]
      ring
    have hriseq : stF.accRise
        = (rest.getLastD p0).elev
          - getElevAt (p0 :: rest) (p0.d + (n : ℚ) * binKm) := by
      rw [h4, hpeF]
    refine Or.inr ⟨?_, ?_, ?_⟩
    · rw [hfin, hres, hlenq, hriseq, h6]
    · rw [← hlenq]
      exact hpos
    · rw [← hlenq, h1]
      linarith
  · have hres : (pushBin stF).result = stF.result := by
      rw [pushBin, if_pos (not_lt.mp hpos)]
    refine Or.inl ?_
    rw [hfin, hres, h6]

/-- Witness for C9's amended theorem on two strictly increasing samples
spanning one and a half 1 km bins. -/
theorem binByDistance_spec_witness :
    ((0 : ℚ) < 1)
    ∧ (((⟨0, 0⟩ : RawPt) :: [⟨3/2, 150⟩]).Pairwise (fun a b => a.d < b.d))
    ∧ ((∃ n : ℕ,
          binByDistance ((⟨0, 0⟩ : RawPt) :: [⟨3/2, 150⟩]) 1
              = (List.range n).map (fullBinAt ((⟨0, 0⟩ : RawPt) :: [⟨3/2, 150⟩]) (⟨0, 0⟩ : RawPt).d 1)
          ∨ (binByDistance ((⟨0, 0⟩ : RawPt) :: [⟨3/2, 150⟩]) 1
                = (List.range n).map (fullBinAt ((⟨0, 0⟩ : RawPt) :: [⟨3/2, 150⟩]) (⟨0, 0⟩ : RawPt).d 1)
                  ++ [⟨toFixed3 (([⟨3/2, 150⟩].getLastD (⟨0, 0⟩ : RawPt)).d
                        - ((⟨0, 0⟩ : RawPt).d + (n : ℚ) * 1)),
                      toFixed2 ((([⟨3/2, 150⟩].getLastD (⟨0, 0⟩ : RawPt)).elev
                          - getElevAt ((⟨0, 0⟩ : RawPt) :: [⟨3/2, 150⟩]) ((⟨0, 0⟩ : RawPt).d + (n : ℚ) * 1))
                        / ((([⟨3/2, 150⟩].getLastD (⟨0, 0⟩ : RawPt)).d
                            - ((⟨0, 0⟩ : RawPt).d + (n : ℚ) * 1)) * 1000) * 100)⟩]
              ∧ 0 < ([⟨3/2, 150⟩].getLastD (⟨0, 0⟩ : RawPt)).d - ((⟨0, 0⟩ : RawPt).d + (n : ℚ) * 1)
              ∧ ([⟨3/2, 150⟩].getLastD (⟨0, 0⟩ : RawPt)).d - ((⟨0, 0⟩ : RawPt).d + (n : ℚ) * 1) < 1))
        ∧ binByDistance ([] : List RawPt) 1 = []
        ∧ totalGain ((⟨0, 0⟩ : RawPt) :: [⟨3/2, 150⟩])
            = roundQ (posDeltaSum ((⟨0, 0⟩ : RawPt) :: [⟨3/2, 150⟩]))) := by
  refine ⟨by norm_num, ?_, ?_⟩
  · norm_num [List.pairwise_cons]
  · exact binByDistance_spec ⟨0, 0⟩ [⟨3/2, 150⟩] 1 (by norm_num)
      (by norm_num [List.pairwise_cons])

/-- Counterexample to C9 as stated: with samples `[(0 km, 0 m), (1.5 km,
150 m)]` and `binKm = 1`, the final (partial) bin is 0.5 km long with a
50 m rise and the code reports its grade as `(50 / (0.5 * 1000)) * 100 =
10`, not the claim's `(riseM / (binKm * 1000)) * 100 = (50 / 1000) * 100
= 5`. -/
theorem binByDistance_partial_bin_counterexample :
    binByDistance [⟨0, 0⟩, ⟨3/2, 150⟩] 1 = [⟨1, 10⟩, ⟨1/2, 10⟩]
    ∧ toFixed2 ((50 : ℚ) / ((1 : ℚ) * 1000) * 100) = 5
    ∧ ((10 : ℚ) ≠ 5) := by
  refine ⟨?_, ?_, by norm_num⟩
  · have hel : getElevAt [⟨0, 0⟩, ⟨3/2, 150⟩] 1 = 100 := by
      norm_num [getElevAt, interpFind]
    have hc1 : crossEdges [⟨0, 0⟩, ⟨3/2, 150⟩] 1 (3/2) ⟨0, 0, 0 + 1, 0, 0, []⟩
        = crossEdges [⟨0, 0⟩, ⟨3/2, 150⟩] 1 (3/2)
          ⟨1, 100, 2, 0, 0, [⟨1, 10⟩]⟩ := by
      rw [crossEdges_step _ _ _ _ (by norm_num) (by norm_num [BinState.nextEdge]) (by norm_num)]
      norm_num [hel, toFixed3, toFixed2]
    have hc2 : crossEdges [⟨0, 0⟩, ⟨3/2, 150⟩] 1 (3/2) (⟨1, 100, 2, 0, 0, [⟨1, 10⟩]⟩ : BinState)
        = ⟨1, 100, 2, 0, 0, [⟨1, 10⟩]⟩ :=
      crossEdges_exit _ _ _ _ (by norm_num [BinState.nextEdge])
    rw [binByDistance]
    simp only [List.foldl_cons, List.foldl_nil, binStep]
    rw [hc1, hc2]
    norm_num [pushBin, toFixed3, toFixed2]
  · norm_num [toFixed2]

end ClimbApp
